import Mathlib

/-!
Verification of the outlier-detection / robust-statistics core and the
floating-point range type of the `mathematical` package.

The embedding works over exact rational arithmetic: a Python float value is
modelled as a rational number, and where the code's behaviour on the IEEE-754
special values NaN and plus/minus infinity matters, floats are modelled by the
four-constructor type `PyF` below, whose arithmetic follows the IEEE rules for
the operations the code performs (addition, subtraction, absolute value,
division, comparisons).  Rounding of finite floats is modelled only where a
claim turns on it: the binary64 round-to-nearest model `fpRound` below feeds
the floating-point analysis of the `FRange` containment test; everywhere else
exact rational arithmetic idealises float arithmetic.
-/

/-- Model of a Python float where NaN and the infinities are significant:
either NaN, positive infinity, negative infinity, or a finite value
(modelled exactly as a rational). -/
inductive PyF where
  | nan
  | inf
  | ninf
  | fin (q : ℚ)
  deriving DecidableEq

/-- IEEE addition on `PyF`: NaN propagates, opposite infinities give NaN. -/
def PyF.add : PyF → PyF → PyF
  | .nan, _ => .nan
  | _, .nan => .nan
  | .inf, .ninf => .nan
  | .ninf, .inf => .nan
  | .inf, _ => .inf
  | _, .inf => .inf
  | .ninf, _ => .ninf
  | _, .ninf => .ninf
  | .fin a, .fin b => .fin (a + b)

/-- IEEE negation on `PyF`. -/
def PyF.neg : PyF → PyF
  | .nan => .nan
  | .inf => .ninf
  | .ninf => .inf
  | .fin q => .fin (-q)

/-- IEEE subtraction on `PyF` (`a - b = a + (-b)`; in particular
`inf - inf = nan`). -/
def PyF.sub (a b : PyF) : PyF := a.add b.neg

/-- IEEE absolute value on `PyF`. -/
def PyF.abs : PyF → PyF
  | .nan => .nan
  | .inf => .inf
  | .ninf => .inf
  | .fin q => .fin |q|

/-- IEEE division on `PyF` as numpy performs it elementwise: NaN propagates,
`inf/inf = nan`, division of a nonzero finite value by zero gives a signed
infinity, and `0/0 = nan` (rationals have a single zero, which is treated as
numpy's `+0.0`). -/
def PyF.div : PyF → PyF → PyF
  | .nan, _ => .nan
  | _, .nan => .nan
  | .inf, .inf => .nan
  | .inf, .ninf => .nan
  | .ninf, .inf => .nan
  | .ninf, .ninf => .nan
  | .inf, .fin b => if b < 0 then .ninf else .inf
  | .ninf, .fin b => if b < 0 then .inf else .ninf
  | .fin _, .inf => .fin 0
  | .fin _, .ninf => .fin 0
  | .fin a, .fin b =>
      if b = 0 then (if a = 0 then .nan else if 0 < a then .inf else .ninf)
      else .fin (a / b)

/-- IEEE strict order on `PyF` as a boolean: any comparison with NaN is false. -/
def PyF.lt : PyF → PyF → Bool
  | .nan, _ => false
  | _, .nan => false
  | .ninf, .ninf => false
  | .ninf, _ => true
  | _, .ninf => false
  | .inf, _ => false
  | _, .inf => true
  | .fin a, .fin b => decide (a < b)

/-- IEEE non-strict order on `PyF` as a boolean: any comparison with NaN is
false (in particular NaN is not less-or-equal to itself). -/
def PyF.le : PyF → PyF → Bool
  | .nan, _ => false
  | _, .nan => false
  | .ninf, _ => true
  | _, .ninf => false
  | _, .inf => true
  | .inf, _ => false
  | .fin a, .fin b => decide (a ≤ b)

/-- Strict greater-than on `PyF` (swapped `PyF.lt`). -/
def PyF.gt (a b : PyF) : Bool := PyF.lt b a

/-- Whether the value is NaN. -/
def PyF.isNan : PyF → Bool
  | .nan => true
  | _ => false

/-- Whether the value is finite (neither NaN nor an infinity); this is the
mask used by numpy's `masked_invalid`. -/
def PyF.isFinite : PyF → Bool
  | .fin _ => true
  | _ => false

/-- The sum of a list of `PyF` values, folded from `0.0` on the left, as
`numpy.sum` computes it.  If any element is NaN the sum is NaN. -/
def PyF.sum (l : List PyF) : PyF := l.foldl PyF.add (.fin 0)

/-- Total order used for sorting `PyF` values, matching numpy's sort:
`-inf` before finite values (ordered by value) before `+inf`, with NaN
sorted last. -/
def PyF.sortLe : PyF → PyF → Bool
  | .ninf, _ => true
  | _, .nan => true
  | .nan, _ => false
  | _, .ninf => false
  | _, .inf => true
  | .inf, _ => false
  | .fin a, .fin b => decide (a ≤ b)

/-- Sorting order on `PyF` as a proposition, for use with `insertionSort`. -/
def PyF.sortLeP (a b : PyF) : Prop := PyF.sortLe a b = true

instance : DecidableRel PyF.sortLeP := fun a b => by
  unfold PyF.sortLeP
  infer_instance

/-- `numpy.median` of a (1-D) array of floats: sort, then take the middle
element (odd length) or the mean of the two middle elements (even length).
The median of an empty array is NaN. -/
def pyMedian (l : List PyF) : PyF :=
  let s := l.insertionSort PyF.sortLeP
  let n := s.length
  if n = 0 then .nan
  else if n % 2 = 1 then s.getD (n / 2) .nan
  else PyF.div (PyF.add (s.getD (n / 2 - 1) .nan) (s.getD (n / 2) .nan)) (.fin 2)

/-- Rational linear order as a proposition usable by `insertionSort`. -/
def ratLe (a b : ℚ) : Prop := a ≤ b

instance : DecidableRel ratLe := fun a b => by
  unfold ratLe
  infer_instance

/-- `numpy.percentile(l, p)` with the default linear interpolation: with the
data sorted ascending and `h = (n-1) * p/100`, the result is
`s[floor h] + (h - floor h) * (s[floor h + 1] - s[floor h])` (the upper index
clamped to the last element).  Only called on nonempty data by the code; the
value on an empty list is irrelevant (defined as 0). -/
def pyPercentile (l : List ℚ) (p : ℚ) : ℚ :=
  let s := l.insertionSort ratLe
  let n := s.length
  if n = 0 then 0
  else
    let h : ℚ := ((n : ℚ) - 1) * p / 100
    let i := (⌊h⌋).toNat
    let lo := s.getD i 0
    let hi := s.getD (i + 1) lo
    lo + (h - (⌊h⌋ : ℚ)) * (hi - lo)

example : pyPercentile [1, 2, 50] 25 = 3/2 := by with_unfolding_all decide
example : pyPercentile [1, 2, 50] 75 = 26 := by with_unfolding_all decide
example : pyMedian [.fin 1, .fin 2, .fin 50] = .fin 2 := by with_unfolding_all decide
example : PyF.sum [.fin 1, .inf, .nan] = .nan := by with_unfolding_all decide
example : PyF.div (.fin 4) (.fin 0) = .inf := by decide

/-!
## Dataset filters (`utils.py`)

A raw dataset element is `None`, a boolean, a string, or a (finite) float;
this is the content of `Sequence[Union[float, bool, None]]` as the outlier
detectors receive it.  NaN never enters these datasets in the embedding: the
claims below quantify over finite data, and the NaN-specific behaviour of the
statistics layer is verified separately on `List PyF` inputs.
-/

/-- A dataset element as the filter functions of `utils.py` see it. -/
inductive PyVal where
  | none
  | bool (b : Bool)
  | str (s : String)
  | num (q : ℚ)
  deriving DecidableEq

/-- `strip_none_bool_string`: composition of `strip_nonetype`, `strip_booleans`
and `strip_strings` — removes `None`, booleans and strings, in order.  The
survivors are exactly the numeric elements, which the embedding extracts to
their rational values. -/
def strip_none_bool_string (l : List PyVal) : List ℚ :=
  l.filterMap (fun v => match v with | .num q => some q | _ => Option.none)

/-- `remove_zero`: keeps the nonzero entries (`inputlist[numpy.nonzero(...)]`).
On an already numeric list this removes exactly the zeros. -/
def remove_zero (l : List ℚ) : List ℚ := l.filter (fun q => q ≠ 0)

/-- The common filtering step of `mad_outliers`, `stdev_outlier` and
`quartile_outliers`: `strip_none_bool_string`, then `remove_zero` when
`strip_zero` is set. -/
def filteredDataset (dataset : List PyVal) (strip_zero : Bool) : List ℚ :=
  let d := strip_none_bool_string dataset
  if strip_zero then remove_zero d else d

/-!
## Statistics layer (`stats.py`)
-/

/-- The three NaN policies accepted by `absolute_deviation`. -/
inductive NanPolicy where
  | propagate
  | raise
  | omit
  deriving DecidableEq

/-- Error message raised by `_contains_nan` under the `raise` policy. -/
def errInputNan : String := "The input contains nan values"

/-- `_contains_nan`: detects NaN via `numpy.isnan(numpy.sum(a))` and raises
under the `raise` policy.  The policy argument is an enum in the embedding, so
the invalid-policy branch of the source cannot occur, and the `TypeError`
fallbacks for non-numeric arrays are unreachable for float data. -/
def containsNanCheck (a : List PyF) (nan_policy : NanPolicy) :
    Except String (Bool × NanPolicy) :=
  let contains_nan := (PyF.sum a).isNan
  if contains_nan ∧ nan_policy = .raise then .error errInputNan
  else .ok (contains_nan, nan_policy)

/-- The result of `absolute_deviation`: either a scalar (the early NaN
returns) or the array of absolute deviations. -/
inductive ADResult where
  | scalar (v : PyF)
  | arr (l : List PyF)
  deriving DecidableEq

/-- Decidable equality of `Except` results, for evaluating the embedding on
concrete inputs. -/
instance {ε α : Type} [DecidableEq ε] [DecidableEq α] : DecidableEq (Except ε α)
  | .error e, .error f =>
      if h : e = f then isTrue (by rw [h]) else isFalse (fun hc => h (Except.error.inj hc))
  | .error _, .ok _ => isFalse (fun hc => Except.noConfusion hc)
  | .ok _, .error _ => isFalse (fun hc => Except.noConfusion hc)
  | .ok a, .ok b =>
      if h : a = b then isTrue (by rw [h]) else isFalse (fun hc => h (Except.ok.inj hc))

/-- The deviation computation at the heart of `absolute_deviation` for 1-D
data with the default `center=numpy.median` and default axis:
`abs(arr - median(arr))` elementwise. -/
def adCore (arr : List PyF) : List PyF :=
  let med := pyMedian arr
  arr.map (fun v => PyF.abs (PyF.sub v med))

/-- `absolute_deviation(x, nan_policy)` for 1-D float data with the default
center (median): empty input gives scalar NaN; then `_contains_nan`;
`propagate` with NaN present gives scalar NaN; `omit` with NaN present drops
the invalid entries via `masked_invalid(...).compressed()` — which removes
NaN and the infinities — before computing `abs(arr - median(arr))`. -/
def absolute_deviation (x : List PyF) (nan_policy : NanPolicy) :
    Except String ADResult :=
  if x.length = 0 then .ok (.scalar .nan)
  else
    match containsNanCheck x nan_policy with
    | .error e => .error e
    | .ok (contains_nan, np) =>
      if contains_nan ∧ np = .propagate then .ok (.scalar .nan)
      else
        let arr := if contains_nan ∧ np = .omit
                   then x.filter (fun v => v.isFinite) else x
        .ok (.arr (adCore arr))

/-- `absolute_deviation_from_median(x, nan_policy)`: the deviations of
`absolute_deviation` divided elementwise by their median.  When
`absolute_deviation` returned a scalar, `numpy.median` of that scalar is the
scalar itself and the result is the scalar divided by itself (NaN, since the
scalar returns are always NaN). -/
def absolute_deviation_from_median (x : List PyF) (nan_policy : NanPolicy) :
    Except String ADResult :=
  match absolute_deviation x nan_policy with
  | .error e => .error e
  | .ok (.scalar v) => .ok (.scalar (PyF.div v v))
  | .ok (.arr ad) =>
      let mad := pyMedian ad
      .ok (.arr (ad.map (fun a => PyF.div a mad)))

/-!
## Outlier detectors (`outliers.py`)
-/

/-- The classification loop shared by `stdev_outlier` and
`quartile_outliers`: each value goes to the first list when the condition
holds and to the second otherwise, preserving order. -/
def pyPartition (p : α → Bool) : List α → List α × List α
  | [] => ([], [])
  | x :: xs =>
      let r := pyPartition p xs
      if p x then (x :: r.1, r.2) else (r.1, x :: r.2)

/-- The classification loop of `mad_outliers`: iterates over
`zip(abs_mad, dataset)` and sends `value` to the outliers when
`mad_value > threshold or -threshold > mad_value`. -/
def madPartition (threshold : ℚ) : List (PyF × ℚ) → List ℚ × List ℚ
  | [] => ([], [])
  | (mad_value, value) :: rest =>
      let r := madPartition threshold rest
      if PyF.gt mad_value (.fin threshold) || PyF.gt (.fin (-threshold)) mad_value
      then (value :: r.1, r.2) else (r.1, value :: r.2)

/-- The three-way classification loop of `spss_outliers`:
extremes, then outliers, then the remaining data, preserving order. -/
def threePartition (pExt pOut : ℚ → Bool) : List ℚ → List ℚ × List ℚ × List ℚ
  | [] => ([], [], [])
  | v :: rest =>
      let r := threePartition pExt pOut rest
      if pExt v then (v :: r.1, r.2.1, r.2.2)
      else if pOut v then (r.1, v :: r.2.1, r.2.2)
      else (r.1, r.2.1, v :: r.2.2)

/-- Error message standing for the `TypeError` Python raises when `zip` is
applied to a scalar (the NaN-propagation path of `mad_outliers`). -/
def errZipScalar : String := "zip argument does not support iteration"

/-- `mad_outliers(dataset, strip_zero, threshold)`: filter, return
`([], dataset)` when fewer than two elements remain, otherwise classify by
the MAD-normalised deviation ratios from `absolute_deviation_from_median`
(default `nan_policy` is `propagate`).  If that call produced a scalar, the
source's `zip` would raise a `TypeError`, modelled as an error. -/
def mad_outliers (dataset : List PyVal) (strip_zero : Bool) (threshold : ℚ) :
    Except String (List ℚ × List ℚ) :=
  let d := filteredDataset dataset strip_zero
  if d.length < 2 then .ok ([], d)
  else
    match absolute_deviation_from_median (d.map PyF.fin) .propagate with
    | .ok (.arr abs_mad) => .ok (madPartition threshold (abs_mad.zip d))
    | .ok (.scalar _) => .error errZipScalar
    | .error e => .error e

/-- `numpy.mean` of a 1-D rational dataset. -/
def npMean (d : List ℚ) : ℚ := d.sum / d.length

/-- `numpy.std(d, ddof=1)`: the square root of the sum of squared deviations
from the mean divided by `n - 1`.  The square root forces the value into ℝ. -/
noncomputable def npStdSample (d : List ℚ) : ℝ :=
  Real.sqrt (((d.map (fun x => (x - npMean d) ^ 2)).sum : ℚ) / ((d.length : ℝ) - 1))

/-- The outlier condition of `stdev_outlier`:
`value > (mean + rng*stdev) or -(mean + rng*stdev) > value`. -/
noncomputable def stdevCond (d : List ℚ) (rng : ℚ) (value : ℚ) : Prop :=
  (value : ℝ) > ((npMean d : ℝ) + (rng : ℝ) * npStdSample d) ∨
    -((npMean d : ℝ) + (rng : ℝ) * npStdSample d) > (value : ℝ)

/-- `stdev_outlier(dataset, strip_zero, rng)`: filter, return `([], dataset)`
when fewer than two elements remain, otherwise classify against
`mean ± rng*stdev` bounds (with the source's asymmetric lower bound). -/
noncomputable def stdev_outlier (dataset : List PyVal) (strip_zero : Bool) (rng : ℚ) :
    List ℚ × List ℚ :=
  let d := filteredDataset dataset strip_zero
  if d.length < 2 then ([], d)
  else pyPartition (fun v => @decide (stdevCond d rng v) (Classical.propDecidable _)) d

/-- `quartile_outliers(dataset, strip_zero)`: filter, return `([], dataset)`
when fewer than two elements remain, otherwise classify values outside the
open interval between the outer fences `q3 - 3*iq` and `q3 + 3*iq` (note the
source computes the lower fence from `q3`, not `q1`). -/
def quartile_outliers (dataset : List PyVal) (strip_zero : Bool) :
    List ℚ × List ℚ :=
  let d := filteredDataset dataset strip_zero
  if d.length < 2 then ([], d)
  else
    let q3 := pyPercentile d 75
    let iq := q3 - pyPercentile d 25
    let upper_outer_fence := q3 + 3 * iq
    let lower_outer_fence := q3 - 3 * iq
    pyPartition (fun v => !(decide (lower_outer_fence < v) && decide (v < upper_outer_fence))) d

/-- Error message of the `spss_outliers` size check. -/
def errTooSmall : String := "Dataset too small"

/-- One pass of the zero-stripping loop of `spss_outliers`:
`for val in dataset: if val in ['', 0.0, 0]: dataset.remove(val)`.
Python's list iterator keeps an index that advances after every step even
when `remove` shortens the list, so removals skip the following element; the
embedding replays that semantics with an explicit index, and `remove` deletes
the first occurrence of the value.  On numeric data the membership test
`val in ['', 0.0, 0]` is `val == 0`. -/
def spssPassGo : ℕ → List ℚ → ℕ → List ℚ
  | 0, l, _ => l
  | fuel + 1, l, i =>
      if h : i < l.length then
        let val := l.get ⟨i, h⟩
        let l' := if val = 0 then l.erase val else l
        spssPassGo fuel l' (i + 1)
      else l

/-- One full pass of the zero-stripping loop.  The loop index grows by one
each step and the list never grows, so `l.length` steps always suffice. -/
def spssPass (l : List ℚ) : List ℚ := spssPassGo l.length l 0

/-- The dataset `spss_outliers` actually computes its quartiles on: the
original data after the `for i in range(2)` cleaning loop.  On numeric data
the `x is not None` comprehension is the identity and only the (buggy)
zero-removal passes act. -/
def spssFiltered (l : List ℚ) : List ℚ := spssPass (spssPass l)

/-- `spss_outliers(dataset)` on numeric data.  The initial size check applies
to the unfiltered input.  The source's check
`list(set(dataset)) in [None, 0.0, '', 0]` compares a list against scalars
and is always false, and `dataset == [None]` cannot hold after the `None`
strip; both dead branches are omitted.  After cleaning, an empty dataset
returns three empty groups; otherwise values are classified against the
`1.5*IQR` outlier fences and `3*IQR` extreme fences (both lower fences
computed from `q3` as in the source). -/
def spss_outliers (dataset : List ℚ) : Except String (List ℚ × List ℚ × List ℚ) :=
  if dataset.length < 2 then .error errTooSmall
  else
    let d := spssFiltered dataset
    if d.length = 0 then .ok ([], [], d)
    else
      let q3 := pyPercentile d 75
      let iq := q3 - pyPercentile d 25
      let upper_outlier_fence := q3 + (3/2) * iq
      let lower_outlier_fence := q3 - (3/2) * iq
      let upper_extreme_fence := q3 + 3 * iq
      let lower_extreme_fence := q3 - 3 * iq
      .ok (threePartition
        (fun v => !(decide (lower_extreme_fence < v) && decide (v < upper_extreme_fence)))
        (fun v => !(decide (lower_outlier_fence < v) && decide (v < upper_outlier_fence)))
        d)

/-!
## Effect size interpretation (`stats.py`, `interpret_d`)
-/

/-- Strings returned by `interpret_d`. -/
def strNoEffect : String := "No Effect"

/-- Label for the 0.2 to 0.5 band. -/
def strSmallEffect : String := "Small Effect"

/-- Label for the 0.5 to 0.8 band. -/
def strIntermediateEffect : String := "Intermediate Effect"

/-- Label for the band 0.8 and above. -/
def strLargeEffect : String := "Large Effect"

/-- Suffix appended for negative inputs. -/
def strAdverse : String := " Adverse Effect"

/-- Fallback for an empty split (never reached on the actual labels). -/
def strEmpty : String := ""

/-- `interpret_d(d_or_g)` with an explicit recursion budget: the source
recurses on `abs(d_or_g)` in its final branch, which never terminates for a
NaN argument (every comparison with NaN is false and `abs(nan) = nan`), so
the embedding returns `Option.none` when the budget is exhausted.  The
chained comparisons `a <= d < b` are conjunctions of the two comparisons, and
the adverse label keeps the first space-separated word of the recursive
result. -/
def interpret_d : ℕ → PyF → Option String
  | 0, _ => Option.none
  | fuel + 1, d =>
      if PyF.le (.fin 0) d && PyF.lt d (.fin (1/5)) then some strNoEffect
      else if PyF.le (.fin (1/5)) d && PyF.lt d (.fin (1/2)) then some strSmallEffect
      else if PyF.le (.fin (1/2)) d && PyF.lt d (.fin (4/5)) then some strIntermediateEffect
      else if PyF.le (.fin (4/5)) d then some strLargeEffect
      else (interpret_d fuel (PyF.abs d)).map
        (fun s => ((s.splitOn).headD strEmpty) ++ strAdverse)

/-!
## FRange (`utils.py`)
-/

/-- A constructed `FRange` value: the immutable `(start, stop, step)` triple. -/
structure FRange where
  start : ℚ
  stop : ℚ
  step : ℚ
  deriving DecidableEq

/-- Error message for a zero step. -/
def errStepZero : String := "step argument must not be zero"

/-- Error message for an oversized start value. -/
def errStartTooLarge : String := "Value too large for start"

/-- Error message for an oversized stop value. -/
def errStopTooLarge : String := "Value too large for stop"

/-- Error message for an oversized step value. -/
def errStepTooLarge : String := "Value too large for step"

/-- The `magnitude(x) > 14` guard of the `FRange` constructor.  The source
computes `int(log10(abs(x)))` (0 for `x = 0`); since `int` truncates toward
zero, the guard trips exactly when `|x| >= 10^15`. -/
def magGt14 (x : ℚ) : Bool := decide ((10 : ℚ) ^ 15 ≤ |x|)

/-- `FRange(start, stop, step)` construction with its validation: zero step
and the three magnitude guards, checked in source order. -/
def mkFRange (start stop step : ℚ) : Except String FRange :=
  if step = 0 then .error errStepZero
  else if magGt14 start then .error errStartTooLarge
  else if magGt14 stop then .error errStopTooLarge
  else if magGt14 step then .error errStepTooLarge
  else .ok ⟨start, stop, step⟩

/-- Validity of an `FRange` triple: construction succeeds. -/
def FValid (start stop step : ℚ) : Bool :=
  !(decide (step = 0)) && !(magGt14 start) && !(magGt14 stop) && !(magGt14 step)

/-- Python's float modulo: `a - b * floor(a / b)` (result has the sign of
`b`).  Only used with a nonzero divisor. -/
def pyMod (a b : ℚ) : ℚ := a - b * ⌊a / b⌋

/-- The number of loop iterations of `FRange.__iter__` before the break
condition fires: the first `count` with `start + count*step` at or past
`stop` in the direction of `step`, which is `ceil((stop - start)/step)`
clamped to zero.  (Meaningless when `step = 0`, where the source loop never
terminates.) -/
def FRange.iterLen (r : FRange) : ℕ := (⌈(r.stop - r.start) / r.step⌉).toNat

/-- The body of `FRange.__iter__`: starting at iteration `count`, produce
`start + count*step` values until the break condition fires or the fuel runs
out. -/
def FRange.iterFrom (r : FRange) : ℕ → ℕ → List ℚ
  | 0, _ => []
  | fuel + 1, count =>
      let value := r.start + (count : ℚ) * r.step
      if (r.step > 0 ∧ value ≥ r.stop) ∨ (r.step < 0 ∧ value ≤ r.stop) then []
      else value :: FRange.iterFrom r fuel (count + 1)

/-- The full sequence produced by `FRange.__iter__` (for a nonzero step the
loop runs exactly `iterLen` times, which is proved below and makes this fuel
sufficient). -/
def FRange.toList (r : FRange) : List ℚ := r.iterFrom r.iterLen 0

/-- `FRange.__len__`: zero for a range that is empty given the sign of the
step, otherwise `ceil((stop - start)/step)`. -/
def FRange.pyLen (r : FRange) : ℤ :=
  if r.stop ≤ r.start ∧ r.step > 0 then 0
  else if r.stop ≥ r.start ∧ r.step < 0 then 0
  else ⌈(r.stop - r.start) / r.step⌉

/-- `FRange.__contains__` for a numeric argument:
bounds check plus `not ((o - start) % step)`. -/
def FRange.containsF (r : FRange) (o : ℚ) : Bool :=
  if r.step > 0 then
    decide (r.start ≤ o ∧ o < r.stop) && decide (pyMod (o - r.start) r.step = 0)
  else if r.step < 0 then
    decide (r.start ≥ o ∧ o > r.stop) && decide (pyMod (o - r.start) r.step = 0)
  else false

/-- `FRange.__reversed__`: for `start == stop` an equivalent empty range with
negated step; otherwise the remainder-corrected reversed range
`FRange(stop - remainder, start - step, -step)` with
`remainder = ((stop - start) % step) or step`.  The constructed range passes
through `FRange` validation, which can fail. -/
def FRange.reversedF (r : FRange) : Except String FRange :=
  if r.start = r.stop then mkFRange r.start r.stop (-r.step)
  else
    let m := pyMod (r.stop - r.start) r.step
    let remainder := if m = 0 then r.step else m
    mkFRange (r.stop - remainder) (r.start - r.step) (-r.step)

/-- `FRange.__eq__` against another `FRange`:
`tuple(self) == tuple(other)`, i.e. equality of the materialised sequences. -/
def FRange.eqF (r₁ r₂ : FRange) : Bool := r₁.toList == r₂.toList

/-- A native Python integer `range(start, stop, step)` value. -/
structure IntRange where
  start : ℤ
  stop : ℤ
  step : ℤ
  deriving DecidableEq

/-- The materialised sequence of a native integer range. -/
def IntRange.toList (r : IntRange) : List ℤ :=
  (List.range ((⌈((r.stop - r.start : ℤ) : ℚ) / ((r.step : ℤ) : ℚ)⌉).toNat)).map
    (fun k => r.start + (k : ℤ) * r.step)

/-- `FRange.__eq__` against a native integer range: `tuple(self)` (floats)
compared elementwise with `tuple(other)` (integers); Python's mixed
float/int equality is exact numeric equality, i.e. equality in ℚ after
casting. -/
def FRange.eqR (r : FRange) (q : IntRange) : Bool :=
  r.toList == q.toList.map (fun z => (z : ℚ))

/-- `FRange.__hash__` is `hash(tuple(self))`, a pure function of the
materialised sequence; the embedding models the hash value by the
materialised tuple itself. -/
def FRange.hashF (r : FRange) : List ℚ := r.toList

/-!
## Derived and specification-side definitions used by the claim statements
-/

/-- The list of MAD-normalised deviation ratios `mad_outliers` computes on a
(nan-free) filtered dataset: the absolute deviations from the median, each
divided by the median of those deviations. -/
def madRatioList (d : List ℚ) : List PyF :=
  let ad := adCore (d.map PyF.fin)
  ad.map (fun a => PyF.div a (pyMedian ad))

/-- The outlier condition of the `mad_outliers` loop on a deviation ratio:
`mad_value > threshold or -threshold > mad_value`. -/
def madCond (threshold : ℚ) (mad_value : PyF) : Bool :=
  PyF.gt mad_value (.fin threshold) || PyF.gt (.fin (-threshold)) mad_value

/-- Specification-side sample mean: the sum of the (real) values divided by
their number.  Written from the spec text for the refinement claim about
`stdev_outlier`. -/
noncomputable def specSampleMean (d : List ℚ) : ℝ :=
  (d.map (fun x : ℚ => (x : ℝ))).sum / d.length

/-- Specification-side sample standard deviation with `ddof = 1`:
the square root of the sum of squared deviations from the sample mean
divided by `n - 1`.  Written from the spec text. -/
noncomputable def specSampleStdev (d : List ℚ) : ℝ :=
  Real.sqrt ((d.map (fun x : ℚ => ((x : ℝ) - specSampleMean d) ^ 2)).sum / ((d.length : ℝ) - 1))

/-- Specification-side outlier condition for `stdev_outlier`:
`value > mean + rng*stdev` or `value < -(mean + rng*stdev)`, with the
asymmetric lower bound exactly as the spec states it. -/
noncomputable def specStdevOutlierCond (d : List ℚ) (rng v : ℚ) : Prop :=
  (v : ℝ) > specSampleMean d + (rng : ℝ) * specSampleStdev d ∨
    (v : ℝ) < -(specSampleMean d + (rng : ℝ) * specSampleStdev d)

/-- Specification-side partition of the filtered dataset by the
`stdev_outlier` condition of the spec: outliers first, remaining data
second, both in input order. -/
noncomputable def specStdevPartition (d : List ℚ) (rng : ℚ) : List ℚ × List ℚ :=
  (d.filter (fun v => @decide (specStdevOutlierCond d rng v) (Classical.propDecidable _)),
   d.filter (fun v => !(@decide (specStdevOutlierCond d rng v) (Classical.propDecidable _))))

/-- Formalisation of the claim that under the `omit` policy
`absolute_deviation` drops the NaNs (and only the NaNs) before computing the
center and the deviations. -/
def adOmitClaim (x : List PyF) : List PyF :=
  adCore (x.filter (fun v => !v.isNan))

/-!
## Binary64 model of float arithmetic (for the `FRange` containment claim)

Python floats are IEEE-754 binary64 values, so the agreement between the
modulo-based containment test of `FRange.__contains__` and the values
actually produced by `FRange.__iter__` depends on rounding.  The model
below rounds an exact rational to the nearest binary64 value
(round-to-nearest, ties to even, 53-bit significand, unbounded exponent
range: overflow and subnormals are not modelled, which is exact for all
magnitudes arising in the evaluations below).
-/

/-- Fuelled floor-of-log2 on naturals: the fuel bounds the number of
halvings, and fuel `n` always suffices for input `n`. -/
def log2fuel : ℕ → ℕ → ℕ
  | 0, _ => 0
  | fuel + 1, n => if n ≤ 1 then 0 else log2fuel fuel (n / 2) + 1

/-- Floor of log2 of a natural number (0 for inputs 0 and 1). -/
def natLog2 (n : ℕ) : ℕ := log2fuel n n

/-- Floor of log2 of a positive rational: the numerator/denominator bit
lengths bracket it within one, and a single comparison settles which. -/
def ratLog2 (x : ℚ) : ℤ :=
  let e : ℤ := (natLog2 x.num.toNat : ℤ) - (natLog2 x.den : ℤ)
  if x < (2 : ℚ) ^ e then e - 1 else e

/-- Round a rational to the nearest integer, ties to even. -/
def roundHalfEven (q : ℚ) : ℤ :=
  let f := ⌊q⌋
  let r := q - f
  if r < 1 / 2 then f
  else if 1 / 2 < r then f + 1
  else if f % 2 = 0 then f else f + 1

/-- IEEE-754 binary64 rounding (round-to-nearest, ties to even): scale the
magnitude into `[2^52, 2^53)`, round the scaled significand to the nearest
even integer, and scale back.  Every float literal and every float
arithmetic result of the source is the `fpRound` of its exact rational
value. -/
def fpRound (x : ℚ) : ℚ :=
  if x = 0 then 0
  else
    let e : ℤ := ratLog2 |x| - 52
    let n : ℤ := roundHalfEven (|x| / (2 : ℚ) ^ e)
    (if x < 0 then -(n : ℚ) else (n : ℚ)) * (2 : ℚ) ^ e

/-- The binary64 value of the source literal `0.1`. -/
def fpLit01 : ℚ := fpRound (1 / 10)

/-- The body of `FRange.__iter__` under binary64 arithmetic: each produced
value is `float(start + count * step)`, i.e. the rounding of
`count * step` followed by the rounding of the sum (the integer `count`
converts to a float exactly below `2^53`); the break comparisons on doubles
are exact. -/
def FRange.iterFromFP (r : FRange) : ℕ → ℕ → List ℚ
  | 0, _ => []
  | fuel + 1, count =>
      let value := fpRound (r.start + fpRound ((count : ℚ) * r.step))
      if (r.step > 0 ∧ value ≥ r.stop) ∨ (r.step < 0 ∧ value ≤ r.stop) then []
      else value :: FRange.iterFromFP r fuel (count + 1)

/-- The first values produced by `FRange.__iter__` under binary64
arithmetic; the fuel bounds the number of loop iterations replayed. -/
def FRange.toListFP (r : FRange) (fuel : ℕ) : List ℚ := r.iterFromFP fuel 0

/-- `FRange.__contains__` under binary64 arithmetic: the subtraction
`o - start` rounds, the bound comparisons on doubles are exact, and the
float modulo `(o - start) % step` is based on C `fmod`, whose value is the
exact remainder of its double operands; in particular the truthiness test
`not ((o - start) % step)` succeeds exactly when the exact `pyMod` of the
rounded difference is zero. -/
def FRange.containsFP (r : FRange) (o : ℚ) : Bool :=
  if r.step > 0 then
    decide (r.start ≤ o ∧ o < r.stop) && decide (pyMod (fpRound (o - r.start)) r.step = 0)
  else if r.step < 0 then
    decide (r.start ≥ o ∧ o > r.stop) && decide (pyMod (fpRound (o - r.start)) r.step = 0)
  else false

example : FRange.toList ⟨1, 10, 3⟩ = [1, 4, 7] := by with_unfolding_all decide
example : FRange.toList ⟨5, -5, -3⟩ = [5, 2, -1, -4] := by with_unfolding_all decide
example : FRange.pyLen ⟨1, 10, 3⟩ = 3 := by with_unfolding_all decide
example : interpret_d 2 (.fin (-1)) = some ("Large" ++ strAdverse) := by
  with_unfolding_all decide

/-!
## Lemmas about the classification loops
-/

theorem pyPartition_fst_eq_filter (p : α → Bool) (l : List α) :
    (pyPartition p l).1 = l.filter p := by
  induction l with
  | nil => rfl
  | cons x xs ih =>
    by_cases hx : p x <;> simp [pyPartition, List.filter_cons, hx, ih]

theorem pyPartition_snd_eq_filter (p : α → Bool) (l : List α) :
    (pyPartition p l).2 = l.filter (fun x => !(p x)) := by
  induction l with
  | nil => rfl
  | cons x xs ih =>
    by_cases hx : p x <;> simp [pyPartition, List.filter_cons, hx, ih]

theorem count_filter_add [DecidableEq α] (p : α → Bool) (l : List α) (v : α) :
    (l.filter p).count v + (l.filter (fun x => !(p x))).count v = l.count v := by
  have h := List.count_eq_count_filter_add (fun x => p x = true) l v
  simpa using h.symm

theorem length_filter_add (p : α → Bool) (l : List α) :
    (l.filter p).length + (l.filter (fun x => !(p x))).length = l.length :=
  (List.length_eq_length_filter_add p).symm

theorem madPartition_eq (t : ℚ) (z : List (PyF × ℚ)) :
    madPartition t z =
      (((pyPartition (fun x => madCond t x.1) z).1).map Prod.snd,
       ((pyPartition (fun x => madCond t x.1) z).2).map Prod.snd) := by
  induction z with
  | nil => rfl
  | cons x xs ih =>
    obtain ⟨mv, v⟩ := x
    by_cases hx : madCond t mv <;>
      · simp only [madCond] at hx
        simp [madPartition, pyPartition, madCond, hx, ih]

theorem threePartition_fst_eq_filter (pe po : ℚ → Bool) (l : List ℚ) :
    (threePartition pe po l).1 = l.filter pe := by
  induction l with
  | nil => rfl
  | cons x xs ih =>
    by_cases he : pe x <;> by_cases ho : po x <;>
      simp [threePartition, List.filter_cons, he, ho, ih]

theorem threePartition_snd_eq_filter (pe po : ℚ → Bool) (l : List ℚ) :
    (threePartition pe po l).2.1 = l.filter (fun v => !(pe v) && po v) := by
  induction l with
  | nil => rfl
  | cons x xs ih =>
    by_cases he : pe x <;> by_cases ho : po x <;>
      simp [threePartition, List.filter_cons, he, ho, ih]

theorem threePartition_thd_eq_filter (pe po : ℚ → Bool) (l : List ℚ) :
    (threePartition pe po l).2.2 = l.filter (fun v => !(pe v) && !(po v)) := by
  induction l with
  | nil => rfl
  | cons x xs ih =>
    by_cases he : pe x <;> by_cases ho : po x <;>
      simp [threePartition, List.filter_cons, he, ho, ih]

theorem threePartition_count (pe po : ℚ → Bool) (l : List ℚ) (v : ℚ) :
    (threePartition pe po l).1.count v + (threePartition pe po l).2.1.count v
      + (threePartition pe po l).2.2.count v = l.count v := by
  induction l with
  | nil => rfl
  | cons x xs ih =>
    by_cases hv : x = v
    · subst hv
      by_cases he : pe x <;> by_cases ho : po x <;>
        simp [threePartition, List.count_cons, he, ho, ← ih] <;> omega
    · have hv' : ¬(v = x) := fun hc => hv hc.symm
      by_cases he : pe x <;> by_cases ho : po x <;>
        simp [threePartition, List.count_cons, he, ho, hv', ← ih]

theorem threePartition_length (pe po : ℚ → Bool) (l : List ℚ) :
    (threePartition pe po l).1.length + (threePartition pe po l).2.1.length
      + (threePartition pe po l).2.2.length = l.length := by
  induction l with
  | nil => rfl
  | cons x xs ih =>
    by_cases he : pe x <;> by_cases ho : po x <;>
      simp [threePartition, he, ho, ← ih] <;> omega

/-!
## Lemmas about the MAD pipeline
-/

theorem PyF.foldl_add_fin (l : List ℚ) (q : ℚ) :
    List.foldl PyF.add (PyF.fin q) (l.map PyF.fin) = PyF.fin (q + l.sum) := by
  induction l generalizing q with
  | nil => simp
  | cons x xs ih => simp [PyF.add, ih, add_assoc]

theorem PyF.sum_map_fin (l : List ℚ) : PyF.sum (l.map PyF.fin) = PyF.fin l.sum := by
  simpa using PyF.foldl_add_fin l 0

theorem adfm_map_fin (d : List ℚ) (h : d ≠ []) :
    absolute_deviation_from_median (d.map PyF.fin) .propagate =
      .ok (.arr (madRatioList d)) := by
  simp [absolute_deviation_from_median, absolute_deviation, containsNanCheck,
    PyF.sum_map_fin, PyF.isNan, h, madRatioList]

theorem madRatioList_length (d : List ℚ) : (madRatioList d).length = d.length := by
  simp [madRatioList, adCore]

theorem mad_outliers_eq (dataset : List PyVal) (sz : Bool) (t : ℚ) :
    mad_outliers dataset sz t =
      .ok (if (filteredDataset dataset sz).length < 2
           then ([], filteredDataset dataset sz)
           else madPartition t
             ((madRatioList (filteredDataset dataset sz)).zip (filteredDataset dataset sz))) := by
  unfold mad_outliers
  by_cases hlt : (filteredDataset dataset sz).length < 2
  · simp [hlt]
  · have hne : filteredDataset dataset sz ≠ [] := by
      intro hnil
      rw [hnil] at hlt
      simp at hlt
    simp [hlt, adfm_map_fin _ hne]

theorem madRatio_zip_snd (d : List ℚ) :
    ((madRatioList d).zip d).map Prod.snd = d :=
  List.map_snd_zip _ _ (le_of_eq (madRatioList_length d).symm)

theorem madPartition_fst_sublist (t : ℚ) (z : List (PyF × ℚ)) :
    List.Sublist (madPartition t z).1 (z.map Prod.snd) := by
  rw [madPartition_eq, pyPartition_fst_eq_filter]
  exact (List.filter_sublist _).map _

theorem madPartition_snd_sublist (t : ℚ) (z : List (PyF × ℚ)) :
    List.Sublist (madPartition t z).2 (z.map Prod.snd) := by
  rw [madPartition_eq, pyPartition_snd_eq_filter]
  exact (List.filter_sublist _).map _

theorem madPartition_count (t : ℚ) (z : List (PyF × ℚ)) (v : ℚ) :
    (madPartition t z).1.count v + (madPartition t z).2.count v
      = (z.map Prod.snd).count v := by
  induction z with
  | nil => rfl
  | cons x xs ih =>
    obtain ⟨mv, w⟩ := x
    simp only [madPartition, List.map_cons]
    by_cases hx : (PyF.gt mv (.fin t) || PyF.gt (.fin (-t)) mv) = true
    · rw [if_pos hx]
      dsimp only
      by_cases hw : w = v
      · subst hw
        simp only [List.count_cons_self]
        omega
      · rw [List.count_cons_of_ne (fun hc => hw hc.symm),
          List.count_cons_of_ne (fun hc => hw hc.symm)]
        omega
    · rw [if_neg hx]
      dsimp only
      by_cases hw : w = v
      · subst hw
        simp only [List.count_cons_self]
        omega
      · rw [List.count_cons_of_ne (fun hc => hw hc.symm),
          List.count_cons_of_ne (fun hc => hw hc.symm)]
        omega

theorem madPartition_length (t : ℚ) (z : List (PyF × ℚ)) :
    (madPartition t z).1.length + (madPartition t z).2.length
      = (z.map Prod.snd).length := by
  rw [madPartition_eq]
  simp only [List.length_map, pyPartition_fst_eq_filter, pyPartition_snd_eq_filter]
  exact length_filter_add (fun x => madCond t x.1) z

theorem pyPartition_props [DecidableEq α] (p : α → Bool) (l : List α) :
    List.Sublist (pyPartition p l).1 l ∧ List.Sublist (pyPartition p l).2 l ∧
    (pyPartition p l).1.length + (pyPartition p l).2.length = l.length ∧
    ∀ v, (pyPartition p l).1.count v + (pyPartition p l).2.count v = l.count v := by
  refine ⟨?_, ?_, ?_, ?_⟩
  · rw [pyPartition_fst_eq_filter]
    exact List.filter_sublist _
  · rw [pyPartition_snd_eq_filter]
    exact List.filter_sublist _
  · rw [pyPartition_fst_eq_filter, pyPartition_snd_eq_filter]
    exact length_filter_add p l
  · intro v
    rw [pyPartition_fst_eq_filter, pyPartition_snd_eq_filter]
    exact count_filter_add p l v

theorem guarded_pyPartition_props [DecidableEq α] (c : Prop) [Decidable c]
    (p : α → Bool) (l : List α) :
    List.Sublist (if c then (([] : List α), l) else pyPartition p l).1 l ∧
    List.Sublist (if c then (([] : List α), l) else pyPartition p l).2 l ∧
    (if c then (([] : List α), l) else pyPartition p l).1.length
      + (if c then (([] : List α), l) else pyPartition p l).2.length = l.length ∧
    ∀ v, (if c then (([] : List α), l) else pyPartition p l).1.count v
      + (if c then (([] : List α), l) else pyPartition p l).2.count v = l.count v := by
  by_cases hc : c
  · simp [hc]
  · simpa [hc] using pyPartition_props p l

theorem spss_ok_cases (dq e3 o3 i3 : List ℚ)
    (h : spss_outliers dq = .ok (e3, o3, i3)) :
    ∃ pe po, threePartition pe po (spssFiltered dq) = (e3, o3, i3) := by
  unfold spss_outliers at h
  by_cases h2 : dq.length < 2
  · rw [if_pos h2] at h
    exact absurd h (by simp)
  · rw [if_neg h2] at h
    by_cases h0 : (spssFiltered dq).length = 0
    · have hnil : spssFiltered dq = [] := List.length_eq_zero.mp h0
      rw [if_pos h0] at h
      have h' := Except.ok.inj h
      rw [hnil] at h'
      exact ⟨fun _ => false, fun _ => false, by rw [hnil]; exact h'⟩
    · rw [if_neg h0] at h
      exact ⟨_, _, Except.ok.inj h⟩

/-- C4: `mad_outliers`, `stdev_outlier` and `quartile_outliers` return an
empty outlier list together with the filtered dataset whenever fewer than two
elements survive their filtering step, and `mad_outliers` never fails on
(finite-valued) data, whereas `spss_outliers` fails with the
"Dataset too small" error whenever the original input has fewer than two
elements before any filtering.  (`stdev_outlier` and `quartile_outliers` are
total functions in the embedding, so they cannot fail.) -/
theorem C4_small_dataset_behaviour (dataset : List PyVal) (dq : List ℚ)
    (strip_zero : Bool) (threshold rng : ℚ)
    (hsmall : (filteredDataset dataset strip_zero).length < 2)
    (hq : dq.length < 2) :
    mad_outliers dataset strip_zero threshold = .ok ([], filteredDataset dataset strip_zero) ∧
    (∀ (d2 : List PyVal) (s2 : Bool) (t2 : ℚ), ∃ p, mad_outliers d2 s2 t2 = .ok p) ∧
    stdev_outlier dataset strip_zero rng = ([], filteredDataset dataset strip_zero) ∧
    quartile_outliers dataset strip_zero = ([], filteredDataset dataset strip_zero) ∧
    spss_outliers dq = .error errTooSmall := by
  refine ⟨?_, ?_, ?_, ?_, ?_⟩
  · rw [mad_outliers_eq]
    simp [hsmall]
  · intro d2 s2 t2
    rw [mad_outliers_eq]
    exact ⟨_, rfl⟩
  · unfold stdev_outlier
    simp [hsmall]
  · unfold quartile_outliers
    simp [hsmall]
  · unfold spss_outliers
    simp [hq]

/-- Witness for C4 at a one-element dataset. -/
theorem C4_small_dataset_behaviour_witness :
    ((filteredDataset [PyVal.num 5] true).length < 2) ∧
    (([(5 : ℚ)] : List ℚ).length < 2) ∧
    (mad_outliers [PyVal.num 5] true 3 = .ok ([], filteredDataset [PyVal.num 5] true) ∧
      (∀ (d2 : List PyVal) (s2 : Bool) (t2 : ℚ), ∃ p, mad_outliers d2 s2 t2 = .ok p) ∧
      stdev_outlier [PyVal.num 5] true 2 = ([], filteredDataset [PyVal.num 5] true) ∧
      quartile_outliers [PyVal.num 5] true = ([], filteredDataset [PyVal.num 5] true) ∧
      spss_outliers [(5 : ℚ)] = .error errTooSmall) :=
  ⟨by with_unfolding_all decide, by decide,
    C4_small_dataset_behaviour [PyVal.num 5] [(5 : ℚ)] true 3 2
      (by with_unfolding_all decide) (by decide)⟩

theorem threePartition_props (pe po : ℚ → Bool) (l : List ℚ) :
    List.Sublist (threePartition pe po l).1 l ∧
    List.Sublist (threePartition pe po l).2.1 l ∧
    List.Sublist (threePartition pe po l).2.2 l ∧
    (threePartition pe po l).1.length + (threePartition pe po l).2.1.length
      + (threePartition pe po l).2.2.length = l.length ∧
    ∀ v, (threePartition pe po l).1.count v + (threePartition pe po l).2.1.count v
      + (threePartition pe po l).2.2.count v = l.count v := by
  refine ⟨?_, ?_, ?_, threePartition_length pe po l, threePartition_count pe po l⟩
  · rw [threePartition_fst_eq_filter]
    exact List.filter_sublist _
  · rw [threePartition_snd_eq_filter]
    exact List.filter_sublist _
  · rw [threePartition_thd_eq_filter]
    exact List.filter_sublist _

/-- C1: for every finite dataset and each outlier detector, every element of
the dataset remaining after that detector's filtering step appears in exactly
one of the returned groups (counted with multiplicity), the group sizes sum
to the size of the filtered dataset, and each group is a sublist of the
filtered dataset, i.e. keeps the original relative order. -/
theorem C1_partition_complete (dataset : List PyVal) (dq : List ℚ) (strip_zero : Bool)
    (threshold rng : ℚ) (o i e3 o3 i3 : List ℚ)
    (hmad : mad_outliers dataset strip_zero threshold = .ok (o, i))
    (hspss : spss_outliers dq = .ok (e3, o3, i3)) :
    (List.Sublist o (filteredDataset dataset strip_zero) ∧
      List.Sublist i (filteredDataset dataset strip_zero) ∧
      o.length + i.length = (filteredDataset dataset strip_zero).length ∧
      ∀ v, o.count v + i.count v = (filteredDataset dataset strip_zero).count v) ∧
    (List.Sublist (stdev_outlier dataset strip_zero rng).1 (filteredDataset dataset strip_zero) ∧
      List.Sublist (stdev_outlier dataset strip_zero rng).2 (filteredDataset dataset strip_zero) ∧
      (stdev_outlier dataset strip_zero rng).1.length
        + (stdev_outlier dataset strip_zero rng).2.length
        = (filteredDataset dataset strip_zero).length ∧
      ∀ v, (stdev_outlier dataset strip_zero rng).1.count v
        + (stdev_outlier dataset strip_zero rng).2.count v
        = (filteredDataset dataset strip_zero).count v) ∧
    (List.Sublist (quartile_outliers dataset strip_zero).1 (filteredDataset dataset strip_zero) ∧
      List.Sublist (quartile_outliers dataset strip_zero).2 (filteredDataset dataset strip_zero) ∧
      (quartile_outliers dataset strip_zero).1.length
        + (quartile_outliers dataset strip_zero).2.length
        = (filteredDataset dataset strip_zero).length ∧
      ∀ v, (quartile_outliers dataset strip_zero).1.count v
        + (quartile_outliers dataset strip_zero).2.count v
        = (filteredDataset dataset strip_zero).count v) ∧
    (List.Sublist e3 (spssFiltered dq) ∧ List.Sublist o3 (spssFiltered dq) ∧
      List.Sublist i3 (spssFiltered dq) ∧
      e3.length + o3.length + i3.length = (spssFiltered dq).length ∧
      ∀ v, e3.count v + o3.count v + i3.count v = (spssFiltered dq).count v) := by
  refine ⟨?_, ?_, ?_, ?_⟩
  · rw [mad_outliers_eq] at hmad
    have h' := Except.ok.inj hmad
    by_cases hlt : (filteredDataset dataset strip_zero).length < 2
    · rw [if_pos hlt] at h'
      injection h' with ho hi
      subst ho
      subst hi
      exact ⟨List.nil_sublist _, List.Sublist.refl _, by simp, fun v => by simp⟩
    · rw [if_neg hlt] at h'
      rw [Prod.ext_iff] at h'
      obtain ⟨ho, hi⟩ := h'
      simp only [Prod.fst, Prod.snd] at ho hi
      rw [show o = (o, i).1 from rfl, show i = (o, i).2 from rfl, ← ho, ← hi]
      have hs1 := madPartition_fst_sublist threshold
        ((madRatioList (filteredDataset dataset strip_zero)).zip (filteredDataset dataset strip_zero))
      have hs2 := madPartition_snd_sublist threshold
        ((madRatioList (filteredDataset dataset strip_zero)).zip (filteredDataset dataset strip_zero))
      have hl := madPartition_length threshold
        ((madRatioList (filteredDataset dataset strip_zero)).zip (filteredDataset dataset strip_zero))
      have hc := madPartition_count threshold
        ((madRatioList (filteredDataset dataset strip_zero)).zip (filteredDataset dataset strip_zero))
      rw [madRatio_zip_snd] at hs1 hs2 hl
      refine ⟨hs1, hs2, hl, fun v => ?_⟩
      have := hc v
      rw [madRatio_zip_snd] at this
      exact this
  · exact guarded_pyPartition_props _
      (fun v => @decide (stdevCond (filteredDataset dataset strip_zero) rng v)
        (Classical.propDecidable _))
      (filteredDataset dataset strip_zero)
  · exact guarded_pyPartition_props _
      (fun v =>
        !(decide (pyPercentile (filteredDataset dataset strip_zero) 75
            - 3 * (pyPercentile (filteredDataset dataset strip_zero) 75
              - pyPercentile (filteredDataset dataset strip_zero) 25) < v) &&
          decide (v < pyPercentile (filteredDataset dataset strip_zero) 75
            + 3 * (pyPercentile (filteredDataset dataset strip_zero) 75
              - pyPercentile (filteredDataset dataset strip_zero) 25))))
      (filteredDataset dataset strip_zero)
  · obtain ⟨pe, po, heq⟩ := spss_ok_cases dq e3 o3 i3 hspss
    have hp := threePartition_props pe po (spssFiltered dq)
    rw [heq] at hp
    exact hp

/-- Witness for C1 at concrete datasets exercising all four detectors. -/
theorem C1_partition_complete_witness :
    (mad_outliers [PyVal.num 1, PyVal.num 2, PyVal.num 50] true 3 = .ok ([50], [1, 2])) ∧
    (spss_outliers [1, 2, 50] = .ok ([], [], [1, 2, 50])) ∧
    ((List.Sublist [(50 : ℚ)] (filteredDataset [PyVal.num 1, PyVal.num 2, PyVal.num 50] true) ∧
      List.Sublist [(1 : ℚ), 2] (filteredDataset [PyVal.num 1, PyVal.num 2, PyVal.num 50] true) ∧
      [(50 : ℚ)].length + [(1 : ℚ), 2].length
        = (filteredDataset [PyVal.num 1, PyVal.num 2, PyVal.num 50] true).length ∧
      ∀ v, [(50 : ℚ)].count v + [(1 : ℚ), 2].count v
        = (filteredDataset [PyVal.num 1, PyVal.num 2, PyVal.num 50] true).count v) ∧
    (List.Sublist (stdev_outlier [PyVal.num 1, PyVal.num 2, PyVal.num 50] true 2).1
        (filteredDataset [PyVal.num 1, PyVal.num 2, PyVal.num 50] true) ∧
      List.Sublist (stdev_outlier [PyVal.num 1, PyVal.num 2, PyVal.num 50] true 2).2
        (filteredDataset [PyVal.num 1, PyVal.num 2, PyVal.num 50] true) ∧
      (stdev_outlier [PyVal.num 1, PyVal.num 2, PyVal.num 50] true 2).1.length
        + (stdev_outlier [PyVal.num 1, PyVal.num 2, PyVal.num 50] true 2).2.length
        = (filteredDataset [PyVal.num 1, PyVal.num 2, PyVal.num 50] true).length ∧
      ∀ v, (stdev_outlier [PyVal.num 1, PyVal.num 2, PyVal.num 50] true 2).1.count v
        + (stdev_outlier [PyVal.num 1, PyVal.num 2, PyVal.num 50] true 2).2.count v
        = (filteredDataset [PyVal.num 1, PyVal.num 2, PyVal.num 50] true).count v) ∧
    (List.Sublist (quartile_outliers [PyVal.num 1, PyVal.num 2, PyVal.num 50] true).1
        (filteredDataset [PyVal.num 1, PyVal.num 2, PyVal.num 50] true) ∧
      List.Sublist (quartile_outliers [PyVal.num 1, PyVal.num 2, PyVal.num 50] true).2
        (filteredDataset [PyVal.num 1, PyVal.num 2, PyVal.num 50] true) ∧
      (quartile_outliers [PyVal.num 1, PyVal.num 2, PyVal.num 50] true).1.length
        + (quartile_outliers [PyVal.num 1, PyVal.num 2, PyVal.num 50] true).2.length
        = (filteredDataset [PyVal.num 1, PyVal.num 2, PyVal.num 50] true).length ∧
      ∀ v, (quartile_outliers [PyVal.num 1, PyVal.num 2, PyVal.num 50] true).1.count v
        + (quartile_outliers [PyVal.num 1, PyVal.num 2, PyVal.num 50] true).2.count v
        = (filteredDataset [PyVal.num 1, PyVal.num 2, PyVal.num 50] true).count v) ∧
    (List.Sublist ([] : List ℚ) (spssFiltered [1, 2, 50]) ∧
      List.Sublist ([] : List ℚ) (spssFiltered [1, 2, 50]) ∧
      List.Sublist [(1 : ℚ), 2, 50] (spssFiltered [1, 2, 50]) ∧
      ([] : List ℚ).length + ([] : List ℚ).length + [(1 : ℚ), 2, 50].length
        = (spssFiltered [1, 2, 50]).length ∧
      ∀ v, ([] : List ℚ).count v + ([] : List ℚ).count v + [(1 : ℚ), 2, 50].count v
        = (spssFiltered [1, 2, 50]).count v)) :=
  ⟨by with_unfolding_all rfl, by with_unfolding_all rfl,
    C1_partition_complete [PyVal.num 1, PyVal.num 2, PyVal.num 50] [1, 2, 50] true 3 2
      [50] [1, 2] [] [] [1, 2, 50]
      (by with_unfolding_all rfl) (by with_unfolding_all rfl)⟩

/-!
## Lemmas about the MAD-normalised deviation ratios (claim C10)
-/

theorem PyF.sub_fin (a b : ℚ) : PyF.sub (.fin a) (.fin b) = .fin (a - b) := by
  simp [PyF.sub, PyF.neg, PyF.add, sub_eq_add_neg]

theorem pyMedian_fin_closed (P : ℚ → Prop)
    (hP : ∀ a b, P a → P b → P ((a + b) / 2)) (l : List PyF) (hl : l ≠ [])
    (h : ∀ v ∈ l, ∃ q, v = .fin q ∧ P q) :
    ∃ m, pyMedian l = .fin m ∧ P m := by
  have hperm := List.perm_insertionSort PyF.sortLeP l
  have hmem : ∀ v ∈ l.insertionSort PyF.sortLeP, ∃ q, v = .fin q ∧ P q :=
    fun v hv => h v (hperm.subset hv)
  unfold pyMedian
  have hn0 : ¬((l.insertionSort PyF.sortLeP).length = 0) := by
    rw [hperm.length_eq]
    intro hc
    exact hl (List.length_eq_zero.mp hc)
  rw [if_neg hn0]
  by_cases hodd : (l.insertionSort PyF.sortLeP).length % 2 = 1
  · rw [if_pos hodd]
    have hidx : (l.insertionSort PyF.sortLeP).length / 2
        < (l.insertionSort PyF.sortLeP).length := by omega
    rw [List.getD_eq_getElem?_getD, List.getElem?_eq_getElem hidx, Option.getD_some]
    obtain ⟨q, hq, hPq⟩ := hmem _ (List.getElem_mem hidx)
    exact ⟨q, hq, hPq⟩
  · rw [if_neg hodd]
    have hidx2 : (l.insertionSort PyF.sortLeP).length / 2
        < (l.insertionSort PyF.sortLeP).length := by omega
    have hidx1 : (l.insertionSort PyF.sortLeP).length / 2 - 1
        < (l.insertionSort PyF.sortLeP).length := by omega
    rw [List.getD_eq_getElem?_getD, List.getElem?_eq_getElem hidx1, Option.getD_some,
      List.getD_eq_getElem?_getD, List.getElem?_eq_getElem hidx2, Option.getD_some]
    obtain ⟨a, ha, hPa⟩ := hmem _ (List.getElem_mem hidx1)
    obtain ⟨b, hb, hPb⟩ := hmem _ (List.getElem_mem hidx2)
    refine ⟨(a + b) / 2, ?_, hP a b hPa hPb⟩
    rw [ha, hb]
    norm_num [PyF.add, PyF.div]

theorem adCore_map_fin_elems (d : List ℚ) (hd : d ≠ []) :
    ∀ v ∈ adCore (d.map PyF.fin), ∃ q, v = .fin q ∧ 0 ≤ q := by
  obtain ⟨m, hm, -⟩ := pyMedian_fin_closed (fun _ => True) (fun _ _ _ _ => trivial)
    (d.map PyF.fin) (by simpa using hd)
    (fun v hv => by
      obtain ⟨q, -, rfl⟩ := List.mem_map.mp hv
      exact ⟨q, rfl, trivial⟩)
  intro v hv
  unfold adCore at hv
  obtain ⟨w, hw, rfl⟩ := List.mem_map.mp hv
  obtain ⟨q, -, rfl⟩ := List.mem_map.mp hw
  rw [hm, PyF.sub_fin]
  exact ⟨|q - m|, rfl, abs_nonneg _⟩

theorem madRatioList_elems (d : List ℚ) (hd : d ≠ []) :
    ∀ r ∈ madRatioList d, r = .inf ∨ r = .nan ∨ ∃ q, r = .fin q ∧ 0 ≤ q := by
  have hne : adCore (d.map PyF.fin) ≠ [] := by
    simp [adCore, hd]
  obtain ⟨m, hm, hm0⟩ := pyMedian_fin_closed (fun q => 0 ≤ q)
    (fun a b ha hb => by positivity) (adCore (d.map PyF.fin)) hne
    (adCore_map_fin_elems d hd)
  intro r hr
  unfold madRatioList at hr
  obtain ⟨a, ha, rfl⟩ := List.mem_map.mp hr
  obtain ⟨q, rfl, hq0⟩ := adCore_map_fin_elems d hd a ha
  rw [hm]
  by_cases hmz : m = 0
  · by_cases hqz : q = 0
    · right
      left
      simp [PyF.div, hmz, hqz]
    · left
      have : 0 < q := lt_of_le_of_ne hq0 (fun hc => hqz hc.symm)
      simp [PyF.div, hmz, hqz, this]
  · right
    right
    refine ⟨q / m, by simp [PyF.div, hmz], ?_⟩
    have hmpos : 0 < m := lt_of_le_of_ne hm0 (fun hc => hmz hc.symm)
    positivity

theorem madCond_upper_only (t : ℚ) (ht : 0 ≤ t) (r : PyF)
    (hr : r = .inf ∨ r = .nan ∨ ∃ q, r = .fin q ∧ 0 ≤ q) :
    madCond t r = PyF.gt r (.fin t) := by
  have hlow : PyF.gt (.fin (-t)) r = false := by
    rcases hr with rfl | rfl | ⟨q, rfl, hq⟩
    · rfl
    · rfl
    · simp only [PyF.gt, PyF.lt, decide_eq_false_iff_not, not_lt]
      linarith
  simp [madCond, hlow]

/-- C10: for every dataset with at least two elements after filtering and
every nonnegative threshold, `mad_outliers` classifies a value as an outlier
exactly when its MAD-normalised deviation ratio is strictly greater than the
threshold: the ratios are never negative (each is `+inf`, NaN, or a
nonnegative finite value), so the lower-branch test `-threshold > ratio` of
the source can never fire. -/
theorem C10_mad_lower_branch_unreachable (dataset : List PyVal) (strip_zero : Bool)
    (threshold : ℚ) (hthr : 0 ≤ threshold)
    (hlen : 2 ≤ (filteredDataset dataset strip_zero).length) :
    (∀ r ∈ madRatioList (filteredDataset dataset strip_zero),
      r = .inf ∨ r = .nan ∨ ∃ q, r = .fin q ∧ 0 ≤ q) ∧
    mad_outliers dataset strip_zero threshold =
      .ok (((((madRatioList (filteredDataset dataset strip_zero)).zip
                (filteredDataset dataset strip_zero)).filter
              (fun x => PyF.gt x.1 (.fin threshold))).map Prod.snd),
           ((((madRatioList (filteredDataset dataset strip_zero)).zip
                (filteredDataset dataset strip_zero)).filter
              (fun x => !(PyF.gt x.1 (.fin threshold)))).map Prod.snd)) := by
  have hne : filteredDataset dataset strip_zero ≠ [] := by
    intro hc
    rw [hc] at hlen
    simp at hlen
  refine ⟨madRatioList_elems _ hne, ?_⟩
  rw [mad_outliers_eq, if_neg (by omega)]
  rw [madPartition_eq, pyPartition_fst_eq_filter, pyPartition_snd_eq_filter]
  have hcong : ∀ x ∈ ((madRatioList (filteredDataset dataset strip_zero)).zip
      (filteredDataset dataset strip_zero)),
      madCond threshold x.1 = PyF.gt x.1 (.fin threshold) := by
    intro x hx
    obtain ⟨h1, -⟩ := List.of_mem_zip (a := x.1) (b := x.2) (by simpa using hx)
    exact madCond_upper_only threshold hthr x.1 (madRatioList_elems _ hne x.1 h1)
  have hcong2 : ∀ x ∈ ((madRatioList (filteredDataset dataset strip_zero)).zip
      (filteredDataset dataset strip_zero)),
      (!(madCond threshold x.1)) = (!(PyF.gt x.1 (.fin threshold))) := by
    intro x hx
    rw [hcong x hx]
  refine congrArg Except.ok (Prod.ext ?_ ?_)
  · exact congrArg (List.map Prod.snd) (List.filter_congr hcong)
  · exact congrArg (List.map Prod.snd) (List.filter_congr hcong2)

/-- Witness for C10 at a dataset whose deviation ratios include NaN and
infinity (the MAD of `[1, 1, 5]` is zero). -/
theorem C10_mad_lower_branch_unreachable_witness :
    (0 : ℚ) ≤ 3 ∧
    2 ≤ (filteredDataset [PyVal.num 1, PyVal.num 1, PyVal.num 5] true).length ∧
    ((∀ r ∈ madRatioList (filteredDataset [PyVal.num 1, PyVal.num 1, PyVal.num 5] true),
        r = .inf ∨ r = .nan ∨ ∃ q, r = .fin q ∧ 0 ≤ q) ∧
      mad_outliers [PyVal.num 1, PyVal.num 1, PyVal.num 5] true 3 =
        .ok (((((madRatioList (filteredDataset [PyVal.num 1, PyVal.num 1, PyVal.num 5] true)).zip
                  (filteredDataset [PyVal.num 1, PyVal.num 1, PyVal.num 5] true)).filter
                (fun x => PyF.gt x.1 (.fin 3))).map Prod.snd),
             ((((madRatioList (filteredDataset [PyVal.num 1, PyVal.num 1, PyVal.num 5] true)).zip
                  (filteredDataset [PyVal.num 1, PyVal.num 1, PyVal.num 5] true)).filter
                (fun x => !(PyF.gt x.1 (.fin 3)))).map Prod.snd))) :=
  ⟨by norm_num, by with_unfolding_all decide,
    C10_mad_lower_branch_unreachable [PyVal.num 1, PyVal.num 1, PyVal.num 5] true 3
      (by norm_num) (by with_unfolding_all decide)⟩

/-!
## Lemmas for the stdev outlier condition (claim C2)
-/

theorem rat_cast_list_sum (l : List ℚ) :
    ((l.sum : ℚ) : ℝ) = (l.map (fun x : ℚ => (x : ℝ))).sum := by
  induction l with
  | nil => simp
  | cons x xs ih =>
    simp only [List.sum_cons, List.map_cons, Rat.cast_add, ih]

theorem npMean_cast (d : List ℚ) : ((npMean d : ℚ) : ℝ) = specSampleMean d := by
  unfold npMean specSampleMean
  push_cast [rat_cast_list_sum]
  ring

theorem npStd_eq_spec (d : List ℚ) : npStdSample d = specSampleStdev d := by
  unfold npStdSample specSampleStdev
  have hsum : (((d.map (fun x => (x - npMean d) ^ 2)).sum : ℚ) : ℝ)
      = (d.map (fun x : ℚ => ((x : ℝ) - specSampleMean d) ^ 2)).sum := by
    rw [rat_cast_list_sum, List.map_map]
    refine congrArg List.sum (List.map_congr_left (fun x _ => ?_))
    show (((x - npMean d) ^ 2 : ℚ) : ℝ) = ((x : ℝ) - specSampleMean d) ^ 2
    push_cast [npMean_cast]
    ring
  rw [hsum]

theorem stdevCond_iff_spec (d : List ℚ) (rng v : ℚ) :
    stdevCond d rng v ↔ specStdevOutlierCond d rng v := by
  unfold stdevCond specStdevOutlierCond
  rw [npMean_cast, npStd_eq_spec]

/-- C2: for every dataset with at least two elements remaining after
filtering, `stdev_outlier` classifies a value as an outlier exactly when
`value > mean + rng*stdev` or `value < -(mean + rng*stdev)`, where `mean` and
`stdev` are the sample mean and the `ddof = 1` sample standard deviation of
the filtered dataset — with the asymmetric lower bound `-(mean + rng*stdev)`
of the spec, not `mean - rng*stdev`. -/
theorem C2_stdev_outlier_formula (dataset : List PyVal) (strip_zero : Bool) (rng : ℚ)
    (hlen : 2 ≤ (filteredDataset dataset strip_zero).length) :
    stdev_outlier dataset strip_zero rng
      = specStdevPartition (filteredDataset dataset strip_zero) rng := by
  have hn : ¬((filteredDataset dataset strip_zero).length < 2) := by omega
  unfold stdev_outlier specStdevPartition
  rw [if_neg hn]
  refine Prod.ext ?_ ?_
  · rw [pyPartition_fst_eq_filter]
    refine List.filter_congr (fun x _ => ?_)
    exact decide_eq_decide.mpr (stdevCond_iff_spec _ rng x)
  · rw [pyPartition_snd_eq_filter]
    refine List.filter_congr (fun x _ => ?_)
    show (!(@decide (stdevCond (filteredDataset dataset strip_zero) rng x)
        (Classical.propDecidable _)))
      = (!(@decide (specStdevOutlierCond (filteredDataset dataset strip_zero) rng x)
        (Classical.propDecidable _)))
    rw [decide_eq_decide.mpr (stdevCond_iff_spec _ rng x)]

/-- Witness for C2 at the dataset `[1, 2, 3]`. -/
theorem C2_stdev_outlier_formula_witness :
    2 ≤ (filteredDataset [PyVal.num 1, PyVal.num 2, PyVal.num 3] true).length ∧
    stdev_outlier [PyVal.num 1, PyVal.num 2, PyVal.num 3] true 2
      = specStdevPartition (filteredDataset [PyVal.num 1, PyVal.num 2, PyVal.num 3] true) 2 :=
  ⟨by with_unfolding_all decide,
    C2_stdev_outlier_formula [PyVal.num 1, PyVal.num 2, PyVal.num 3] true 2
      (by with_unfolding_all decide)⟩

/-!
## Lemmas about NaN propagation (claim C3)
-/

theorem PyF.add_nan_left (a : PyF) : PyF.add .nan a = .nan := by
  cases a <;> rfl

theorem PyF.add_nan_right (a : PyF) : PyF.add a .nan = .nan := by
  cases a <;> rfl

theorem PyF.foldl_add_from_nan (l : List PyF) : l.foldl PyF.add .nan = .nan := by
  induction l with
  | nil => rfl
  | cons x xs ih =>
    rw [List.foldl_cons, PyF.add_nan_left]
    exact ih

theorem PyF.foldl_add_nan_mem (l : List PyF) (acc : PyF) (h : PyF.nan ∈ l) :
    l.foldl PyF.add acc = .nan := by
  induction l generalizing acc with
  | nil => simp at h
  | cons x xs ih =>
    rcases List.mem_cons.mp h with hx | hxs
    · rw [List.foldl_cons, ← hx, PyF.add_nan_right]
      exact PyF.foldl_add_from_nan xs
    · rw [List.foldl_cons]
      exact ih _ hxs

theorem PyF.sum_isNan_of_mem (l : List PyF) (h : PyF.nan ∈ l) :
    (PyF.sum l).isNan = true := by
  unfold PyF.sum
  rw [PyF.foldl_add_nan_mem l _ h]
  rfl

/-- C3 (amended): `absolute_deviation` returns a scalar NaN on an empty
input; under `propagate` it returns scalar NaN whenever a NaN is present;
under `raise` it fails whenever a NaN is present; and under `omit` with a NaN
present it drops every non-finite value — the NaNs and also the infinities,
via `masked_invalid(...).compressed()` — before computing the center and the
deviations. -/
theorem C3_absolute_deviation_nan_policies (y : List PyF) (hnan : PyF.nan ∈ y) :
    (∀ p, absolute_deviation [] p = .ok (.scalar .nan)) ∧
    absolute_deviation y .propagate = .ok (.scalar .nan) ∧
    absolute_deviation y .raise = .error errInputNan ∧
    absolute_deviation y .omit = .ok (.arr (adCore (y.filter (fun v => v.isFinite)))) := by
  have hy : ¬(y.length = 0) := by
    intro hc
    rw [List.length_eq_zero.mp hc] at hnan
    simp at hnan
  have hsum : (PyF.sum y).isNan = true := PyF.sum_isNan_of_mem y hnan
  refine ⟨fun p => rfl, ?_, ?_, ?_⟩
  · simp [absolute_deviation, containsNanCheck, hy, hsum]
  · simp [absolute_deviation, containsNanCheck, hy, hsum]
  · simp [absolute_deviation, containsNanCheck, hy, hsum]

/-- Witness for C3 at `[1.0, nan]`. -/
theorem C3_absolute_deviation_nan_policies_witness :
    (PyF.nan ∈ [PyF.fin 1, PyF.nan]) ∧
    ((∀ p, absolute_deviation [] p = .ok (.scalar .nan)) ∧
      absolute_deviation [PyF.fin 1, PyF.nan] .propagate = .ok (.scalar .nan) ∧
      absolute_deviation [PyF.fin 1, PyF.nan] .raise = .error errInputNan ∧
      absolute_deviation [PyF.fin 1, PyF.nan] .omit
        = .ok (.arr (adCore ([PyF.fin 1, PyF.nan].filter (fun v => v.isFinite))))) :=
  ⟨by decide, C3_absolute_deviation_nan_policies [PyF.fin 1, PyF.nan] (by decide)⟩

/-- Counterexample for C3 as frozen: on `[1.0, inf, nan]` under `omit` the
code computes the deviations of `[1.0]` (it drops the infinity as well as the
NaN), not the deviations of `[1.0, inf]` as the "drops NaNs" reading
requires. -/
theorem C3_omit_counterexample :
    absolute_deviation [PyF.fin 1, PyF.inf, PyF.nan] .omit
        ≠ .ok (.arr (adOmitClaim [PyF.fin 1, PyF.inf, PyF.nan])) ∧
    absolute_deviation [PyF.fin 1, PyF.inf, PyF.nan] .omit = .ok (.arr [PyF.fin 0]) ∧
    adOmitClaim [PyF.fin 1, PyF.inf, PyF.nan] = [PyF.inf, PyF.nan] := by
  refine ⟨?_, ?_, ?_⟩ <;> with_unfolding_all decide

/-!
## Lemmas about `interpret_d` (claim C9)
-/

theorem interpret_d_nan (n : ℕ) : interpret_d n .nan = Option.none := by
  induction n with
  | zero => rfl
  | succ n ih =>
    show (interpret_d n (PyF.abs .nan)).map _ = Option.none
    rw [show PyF.abs .nan = .nan from rfl, ih]
    rfl

theorem interpret_d_nonneg_fin (q : ℚ) (hq : 0 ≤ q) (n : ℕ) :
    (interpret_d (n + 1) (.fin q)).isSome = true := by
  simp only [interpret_d, PyF.le, PyF.lt]
  split_ifs with h1 h2 h3 h4
  · rfl
  · rfl
  · rfl
  · rfl
  · exfalso
    simp only [Bool.and_eq_true, decide_eq_true_eq, not_and, not_lt,
      decide_eq_true_eq] at h1 h2 h3 h4
    exact absurd (h3 (h2 (h1 hq))) (by simpa using h4)

/-- C9: `interpret_d` terminates for every non-NaN input (recursion depth two
suffices: a negative value recurses exactly once, on its absolute value,
which hits a base case), but on NaN every threshold comparison is false and
the recursion is on `abs(nan) = nan`, so no amount of recursion budget
produces a result — the source recurses forever. -/
theorem C9_interpret_d_termination (d : PyF) (n : ℕ) (h : d.isNan = false) :
    (interpret_d 2 d).isSome = true ∧ interpret_d n .nan = Option.none := by
  refine ⟨?_, interpret_d_nan n⟩
  cases d with
  | nan => simp [PyF.isNan] at h
  | inf => rfl
  | ninf => rfl
  | fin q =>
    rcases le_or_lt 0 q with hq | hq
    · exact interpret_d_nonneg_fin q hq 1
    · show ((if _ then _ else if _ then _ else if _ then _ else if _ then _
        else (interpret_d 1 (PyF.abs (.fin q))).map _) : Option String).isSome = true
      have c1 : (PyF.le (.fin 0) (.fin q) && PyF.lt (.fin q) (.fin (1/5))) = false := by
        simp [PyF.le, PyF.lt]
        intro hc
        linarith
      have c2 : (PyF.le (.fin (1/5)) (.fin q) && PyF.lt (.fin q) (.fin (1/2))) = false := by
        simp [PyF.le, PyF.lt]
        intro hc
        linarith
      have c3 : (PyF.le (.fin (1/2)) (.fin q) && PyF.lt (.fin q) (.fin (4/5))) = false := by
        simp [PyF.le, PyF.lt]
        intro hc
        linarith
      have c4 : (PyF.le (.fin (4/5)) (.fin q)) = false := by
        simp [PyF.le]
        linarith
      rw [c1, c2, c3, c4]
      simp only [Bool.false_eq_true, if_false]
      rw [show PyF.abs (.fin q) = .fin |q| from rfl]
      have hin := interpret_d_nonneg_fin |q| (abs_nonneg q) 0
      cases hopt : interpret_d 1 (PyF.fin |q|) with
      | none =>
        rw [show (0 + 1 : ℕ) = 1 from rfl, hopt] at hin
        simp at hin
      | some s => rfl

/-- Witness for C9 at the negative input `-1` and recursion budget five. -/
theorem C9_interpret_d_termination_witness :
    ((PyF.fin (-1)).isNan = false) ∧
    (interpret_d 2 (.fin (-1))).isSome = true ∧ interpret_d 5 .nan = Option.none :=
  ⟨by decide, C9_interpret_d_termination (.fin (-1)) 5 (by decide)⟩

/-!
## Lemmas about FRange iteration (claims C5 to C8)
-/

theorem FValid_step (a b s : ℚ) (h : FValid a b s = true) : s ≠ 0 := by
  unfold FValid at h
  simp only [Bool.and_eq_true, Bool.not_eq_true', decide_eq_false_iff_not] at h
  exact h.1.1.1

theorem FRange.breakCond_iff (r : FRange) (hss : r.step ≠ 0) (c : ℕ) :
    ((r.step > 0 ∧ r.start + (c : ℚ) * r.step ≥ r.stop) ∨
      (r.step < 0 ∧ r.start + (c : ℚ) * r.step ≤ r.stop)) ↔ r.iterLen ≤ c := by
  unfold FRange.iterLen
  constructor
  · rintro (⟨hs, hge⟩ | ⟨hs, hle⟩)
    · rw [Int.toNat_le, Int.ceil_le]
      push_cast
      rw [div_le_iff₀ hs]
      linarith
    · rw [Int.toNat_le, Int.ceil_le]
      push_cast
      rw [div_le_iff_of_neg hs]
      linarith
  · intro hle
    rcases hss.lt_or_lt with hs | hs
    · right
      refine ⟨hs, ?_⟩
      rw [Int.toNat_le, Int.ceil_le] at hle
      push_cast at hle
      rw [div_le_iff_of_neg hs] at hle
      linarith
    · left
      refine ⟨hs, ?_⟩
      rw [Int.toNat_le, Int.ceil_le] at hle
      push_cast at hle
      rw [div_le_iff₀ hs] at hle
      linarith

theorem FRange.iterFrom_eq (r : FRange) (hss : r.step ≠ 0) :
    ∀ (fuel c : ℕ), r.iterLen ≤ c + fuel →
      r.iterFrom fuel c = (List.range (r.iterLen - c)).map
        (fun j => r.start + ((c + j : ℕ) : ℚ) * r.step) := by
  intro fuel
  induction fuel with
  | zero =>
    intro c hc
    have h0 : r.iterLen - c = 0 := by omega
    rw [h0]
    rfl
  | succ fuel ih =>
    intro c hc
    show (if _ then _ else _) = _
    by_cases hbr : r.iterLen ≤ c
    · rw [if_pos ((FRange.breakCond_iff r hss c).mpr hbr)]
      have h0 : r.iterLen - c = 0 := by omega
      rw [h0]
      rfl
    · rw [if_neg (fun hcon => hbr ((FRange.breakCond_iff r hss c).mp hcon))]
      rw [ih (c + 1) (by omega)]
      have hrange : r.iterLen - c = (r.iterLen - (c + 1)) + 1 := by omega
      rw [hrange, List.range_succ_eq_map]
      simp only [List.map_cons, List.map_map]
      refine congrArg₂ List.cons ?_ ?_
      · norm_num
      · refine List.map_congr_left (fun j _ => ?_)
        show r.start + ((c + 1 + j : ℕ) : ℚ) * r.step
          = r.start + ((c + (j + 1) : ℕ) : ℚ) * r.step
        rw [show c + 1 + j = c + (j + 1) from by omega]

theorem FRange.toList_eq (r : FRange) (hss : r.step ≠ 0) :
    r.toList = (List.range r.iterLen).map (fun k : ℕ => r.start + (k : ℚ) * r.step) := by
  unfold FRange.toList
  rw [FRange.iterFrom_eq r hss r.iterLen 0 (by omega)]
  rw [Nat.sub_zero]
  refine List.map_congr_left (fun j _ => ?_)
  norm_num

theorem FRange.toList_length (r : FRange) (hss : r.step ≠ 0) :
    (FRange.toList r).length = r.iterLen := by
  rw [FRange.toList_eq r hss]
  simp

/-- C7: for a validly constructed range, `FRange.__len__` is zero when the
range is empty given the sign of the step relative to start and stop, and
`ceil((stop - start)/step)` otherwise; and this length equals the number of
values the iterator produces. -/
theorem C7_frange_length (a b s : ℚ) (h : FValid a b s = true) :
    (FRange.pyLen ⟨a, b, s⟩
      = (if b ≤ a ∧ s > 0 then 0
         else if b ≥ a ∧ s < 0 then 0
         else ⌈(b - a) / s⌉)) ∧
    FRange.pyLen ⟨a, b, s⟩ = ((FRange.toList ⟨a, b, s⟩).length : ℤ) := by
  have hs := FValid_step a b s h
  refine ⟨rfl, ?_⟩
  rw [FRange.toList_length _ hs]
  show FRange.pyLen ⟨a, b, s⟩ = (FRange.iterLen ⟨a, b, s⟩ : ℤ)
  unfold FRange.pyLen FRange.iterLen
  dsimp only
  split_ifs with h1 h2
  · have hle : (⌈((b - a) / s : ℚ)⌉ : ℤ) ≤ 0 := by
      rw [Int.ceil_le]
      push_cast
      rw [div_nonpos_iff]
      right
      exact ⟨by linarith [h1.1], by linarith [h1.2]⟩
    omega
  · have hle : (⌈((b - a) / s : ℚ)⌉ : ℤ) ≤ 0 := by
      rw [Int.ceil_le]
      push_cast
      rw [div_nonpos_iff]
      left
      exact ⟨by linarith [h2.1], by linarith [h2.2]⟩
    omega
  · have hpos : (0 : ℤ) < ⌈((b - a) / s : ℚ)⌉ := by
      rw [Int.ceil_pos]
      rcases hs.lt_or_lt with hneg | hpos
      · have hba : b < a := by
          by_contra hc
          exact h2 ⟨le_of_not_lt hc, hneg⟩
        exact div_pos_of_neg_of_neg (by linarith) hneg
      · have hba : a < b := by
          by_contra hc
          exact h1 ⟨le_of_not_lt hc, hpos⟩
        exact div_pos (by linarith) hpos
    omega

/-- Witness for C7 at `FRange(1, 10, 3)`. -/
theorem C7_frange_length_witness :
    FValid 1 10 3 = true ∧
    ((FRange.pyLen ⟨1, 10, 3⟩
        = (if (10 : ℚ) ≤ 1 ∧ (3 : ℚ) > 0 then 0
           else if (10 : ℚ) ≥ 1 ∧ (3 : ℚ) < 0 then 0
           else ⌈((10 : ℚ) - 1) / 3⌉)) ∧
      FRange.pyLen ⟨1, 10, 3⟩ = ((FRange.toList ⟨1, 10, 3⟩).length : ℤ)) :=
  ⟨by with_unfolding_all decide, C7_frange_length 1 10 3 (by with_unfolding_all decide)⟩

/-- Exact-arithmetic idealisation of the containment/iteration agreement:
were float arithmetic exact, the modulo-based containment test of
`FRange.__contains__` would hold for a number exactly when that number is
one of the values produced by `FRange.__iter__`, for either step sign.
Under real binary64 arithmetic the agreement fails — see the C5 theorem
below, where rounding makes an iterated value violate the modulo test. -/
theorem containsF_iff_mem_toList_exact (a b s : ℚ) (h : FValid a b s = true) (v : ℚ) :
    FRange.containsF ⟨a, b, s⟩ v = true ↔ v ∈ FRange.toList ⟨a, b, s⟩ := by
  have hs := FValid_step a b s h
  have hsne : s ≠ 0 := hs
  rw [FRange.toList_eq _ hs, List.mem_map]
  unfold FRange.containsF
  dsimp only
  have hN : FRange.iterLen ⟨a, b, s⟩ = (⌈((b - a) / s : ℚ)⌉).toNat := rfl
  rcases hs.lt_or_lt with hneg | hpos
  · rw [if_neg (by simp only [not_lt]; exact le_of_lt hneg), if_pos hneg,
      Bool.and_eq_true, decide_eq_true_eq, decide_eq_true_eq]
    constructor
    · rintro ⟨⟨hav, hvb⟩, hmod⟩
      unfold pyMod at hmod
      have hveq : v - a = s * ⌊(v - a) / s⌋ := by linarith
      set m := ⌊(v - a) / s⌋ with hm
      have hm0 : 0 ≤ m := by
        by_contra hc
        push_neg at hc
        have hmq : (m : ℚ) < 0 := by exact_mod_cast hc
        have hsm : 0 < s * (m : ℚ) := mul_pos_of_neg_of_neg hneg hmq
        linarith
      have hmN : m < ⌈((b - a) / s : ℚ)⌉ := by
        rw [Int.lt_ceil, lt_div_iff_of_neg hneg]
        nlinarith
      refine ⟨m.toNat, ?_, ?_⟩
      · rw [List.mem_range, hN]
        omega
      · have hcast : ((m.toNat : ℕ) : ℚ) = (m : ℚ) := by
          exact_mod_cast congrArg (fun z : ℤ => (z : ℚ)) (Int.toNat_of_nonneg hm0)
        rw [hcast]
        linarith
    · rintro ⟨k, hk, hkeq⟩
      rw [List.mem_range, hN] at hk
      have hkN : (k : ℤ) < ⌈((b - a) / s : ℚ)⌉ := by omega
      have hkb : (k : ℚ) < (b - a) / s := by exact_mod_cast Int.lt_ceil.mp hkN
      rw [lt_div_iff_of_neg hneg] at hkb
      have hks : (k : ℚ) * s ≤ 0 :=
        mul_nonpos_of_nonneg_of_nonpos (Nat.cast_nonneg k) (le_of_lt hneg)
      have hva : v - a = (k : ℚ) * s := by linarith
      refine ⟨⟨by linarith, by linarith⟩, ?_⟩
      unfold pyMod
      rw [hva, mul_div_assoc, div_self hsne, mul_one, Int.floor_natCast]
      push_cast
      ring
  · rw [if_pos hpos, Bool.and_eq_true, decide_eq_true_eq, decide_eq_true_eq]
    constructor
    · rintro ⟨⟨hav, hvb⟩, hmod⟩
      unfold pyMod at hmod
      have hveq : v - a = s * ⌊(v - a) / s⌋ := by linarith
      set m := ⌊(v - a) / s⌋ with hm
      have hm0 : 0 ≤ m := by
        by_contra hc
        push_neg at hc
        have hmq : (m : ℚ) < 0 := by exact_mod_cast hc
        have hsm : s * (m : ℚ) < 0 := mul_neg_of_pos_of_neg hpos hmq
        linarith
      have hmN : m < ⌈((b - a) / s : ℚ)⌉ := by
        rw [Int.lt_ceil, lt_div_iff₀ hpos]
        nlinarith
      refine ⟨m.toNat, ?_, ?_⟩
      · rw [List.mem_range, hN]
        omega
      · have hcast : ((m.toNat : ℕ) : ℚ) = (m : ℚ) := by
          exact_mod_cast congrArg (fun z : ℤ => (z : ℚ)) (Int.toNat_of_nonneg hm0)
        rw [hcast]
        linarith
    · rintro ⟨k, hk, hkeq⟩
      rw [List.mem_range, hN] at hk
      have hkN : (k : ℤ) < ⌈((b - a) / s : ℚ)⌉ := by omega
      have hkb : (k : ℚ) < (b - a) / s := by exact_mod_cast Int.lt_ceil.mp hkN
      rw [lt_div_iff₀ hpos] at hkb
      have hks : 0 ≤ (k : ℚ) * s :=
        mul_nonneg (Nat.cast_nonneg k) (le_of_lt hpos)
      have hva : v - a = (k : ℚ) * s := by linarith
      refine ⟨⟨by linarith, by linarith⟩, ?_⟩
      unfold pyMod
      rw [hva, mul_div_assoc, div_self hsne, mul_one, Int.floor_natCast]
      push_cast
      ring

/-- Instance of the exact-arithmetic agreement at `FRange(1, 10, 3)` and the
value `4`. -/
theorem containsF_iff_mem_toList_exact_inst :
    FValid 1 10 3 = true ∧
    (FRange.containsF ⟨1, 10, 3⟩ 4 = true ↔ (4 : ℚ) ∈ FRange.toList ⟨1, 10, 3⟩) :=
  ⟨by with_unfolding_all decide,
    containsF_iff_mem_toList_exact 1 10 3 (by with_unfolding_all decide) 4⟩

/-- Unfolding lemma for one loop iteration of the binary64 `FRange.__iter__`
model: when the produced value does not trip the break condition, it is
yielded and the loop continues at the next count. -/
theorem iterFromFP_cons (r : FRange) (fuel c : ℕ) (v : ℚ)
    (hv : fpRound (r.start + fpRound ((c : ℚ) * r.step)) = v)
    (hbr : ¬((r.step > 0 ∧ v ≥ r.stop) ∨ (r.step < 0 ∧ v ≤ r.stop))) :
    r.iterFromFP (fuel + 1) c = v :: r.iterFromFP fuel (c + 1) := by
  show (if _ then _ else _) = _
  rw [hv, if_neg hbr]

set_option maxRecDepth 4000 in
/-- C5: under the binary64 arithmetic the source actually runs on, the
modulo-based containment test does NOT agree with iteration membership.
For `FRange(0, 1, 0.1)`: the literal `0.1` is the double
`3602879701896397 / 2^55`; the range passes construction validation; the
fourth value produced by `__iter__` is `float(0.0 + 3 * 0.1)
= 5404319552844596 / 2^54` (printed `0.30000000000000004`); yet
`__contains__` rejects that value, because
`(value - 0.0) % 0.1 = 2^-55 ≠ 0`, so the claimed agreement — explicitly
demanded to hold under floating-point arithmetic — fails on the code. -/
theorem C5_fp_contains_disagrees :
    fpLit01 = 3602879701896397 / 36028797018963968 ∧
    FValid 0 1 (3602879701896397 / 36028797018963968) = true ∧
    (5404319552844596 / 18014398509481984 : ℚ)
      ∈ FRange.toListFP ⟨0, 1, 3602879701896397 / 36028797018963968⟩ 4 ∧
    FRange.containsFP ⟨0, 1, 3602879701896397 / 36028797018963968⟩
      (5404319552844596 / 18014398509481984) = false := by
  refine ⟨le_antisymm (by with_unfolding_all decide) (by with_unfolding_all decide),
    by with_unfolding_all decide, ?_, by with_unfolding_all decide⟩
  have e0 : FRange.iterFromFP ⟨0, 1, 3602879701896397 / 36028797018963968⟩ 4 0
      = 0 :: FRange.iterFromFP ⟨0, 1, 3602879701896397 / 36028797018963968⟩ 3 1 :=
    iterFromFP_cons _ 3 0 0
      (le_antisymm (by with_unfolding_all decide) (by with_unfolding_all decide))
      (by norm_num)
  have e1 : FRange.iterFromFP ⟨0, 1, 3602879701896397 / 36028797018963968⟩ 3 1
      = (3602879701896397 / 36028797018963968 : ℚ)
        :: FRange.iterFromFP ⟨0, 1, 3602879701896397 / 36028797018963968⟩ 2 2 :=
    iterFromFP_cons _ 2 1 _
      (le_antisymm (by with_unfolding_all decide) (by with_unfolding_all decide))
      (by norm_num)
  have e2 : FRange.iterFromFP ⟨0, 1, 3602879701896397 / 36028797018963968⟩ 2 2
      = (3602879701896397 / 18014398509481984 : ℚ)
        :: FRange.iterFromFP ⟨0, 1, 3602879701896397 / 36028797018963968⟩ 1 3 :=
    iterFromFP_cons _ 1 2 _
      (le_antisymm (by with_unfolding_all decide) (by with_unfolding_all decide))
      (by norm_num)
  have e3 : FRange.iterFromFP ⟨0, 1, 3602879701896397 / 36028797018963968⟩ 1 3
      = (5404319552844596 / 18014398509481984 : ℚ)
        :: FRange.iterFromFP ⟨0, 1, 3602879701896397 / 36028797018963968⟩ 0 4 :=
    iterFromFP_cons _ 0 3 _
      (le_antisymm (by with_unfolding_all decide) (by with_unfolding_all decide))
      (by norm_num)
  rw [FRange.toListFP, e0, e1, e2, e3]
  simp

/-!
## Lemmas for FRange reversal (claim C6)
-/

theorem mkFRange_ok (x y z : ℚ) (r : FRange) (h : mkFRange x y z = .ok r) :
    r = ⟨x, y, z⟩ ∧ z ≠ 0 := by
  unfold mkFRange at h
  split_ifs at h with h1 h2 h3 h4
  exact ⟨(Except.ok.inj h).symm, h1⟩

theorem reverse_map_range (n : ℕ) (f : ℕ → ℚ) :
    ((List.range n).map f).reverse = (List.range n).map (fun k => f (n - 1 - k)) := by
  apply List.ext_getElem
  · simp
  · intro i h1 h2
    simp only [List.length_reverse, List.length_map, List.length_range] at h1 h2
    rw [List.getElem_reverse]
    simp [List.length_map, List.length_range]

theorem pyMod_eq (x s : ℚ) : pyMod x s = x - s * ⌊x / s⌋ := rfl

/-- C6 (amended): for every validly constructed `FRange(a, b, s)` whose
remainder-corrected reversed range also passes the construction guards,
iterating the reversed range yields exactly the forward iteration sequence in
reverse order.  (The amendment is needed because the reversed endpoints can
violate the magnitude guard even when the original ones satisfy it; see the
counterexample.) -/
theorem C6_reversed_iterates_reverse (a b s : ℚ) (r' : FRange)
    (h : FValid a b s = true)
    (hrev : FRange.reversedF ⟨a, b, s⟩ = .ok r') :
    FRange.toList r' = (FRange.toList ⟨a, b, s⟩).reverse := by
  have hs := FValid_step a b s h
  unfold FRange.reversedF at hrev
  dsimp only at hrev
  by_cases hab : a = b
  · rw [if_pos hab] at hrev
    obtain ⟨hr', hz⟩ := mkFRange_ok _ _ _ r' hrev
    subst hr'
    have h1 : FRange.iterLen ⟨a, b, s⟩ = 0 := by
      unfold FRange.iterLen
      dsimp only
      rw [hab]
      simp
    have h2 : FRange.iterLen ⟨a, b, -s⟩ = 0 := by
      unfold FRange.iterLen
      dsimp only
      rw [hab]
      simp
    rw [FRange.toList_eq _ hz, FRange.toList_eq _ hs]
    show (List.range (FRange.iterLen ⟨a, b, -s⟩)).map _
      = ((List.range (FRange.iterLen ⟨a, b, s⟩)).map _).reverse
    rw [h1, h2]
    rfl
  · rw [if_neg hab] at hrev
    obtain ⟨hr', hz⟩ := mkFRange_ok _ _ _ r' hrev
    subst hr'
    set q : ℤ := ⌊((b - a) / s : ℚ)⌋ with hqdef
    have hfl : (q : ℚ) ≤ (b - a) / s := Int.floor_le _
    have hfu : (b - a) / s < q + 1 := Int.lt_floor_add_one _
    set rem : ℚ := if pyMod (b - a) s = 0 then s else pyMod (b - a) s with hremdef
    have hkey : ⌈(((a - s) - (b - rem)) / (-s) : ℚ)⌉ = ⌈((b - a) / s : ℚ)⌉ ∧
        b - rem = a + ((⌈((b - a) / s : ℚ)⌉ : ℚ) - 1) * s := by
      by_cases hm : pyMod (b - a) s = 0
      · have hba : b - a = s * q := by
          rw [pyMod_eq] at hm
          linarith
        have hdceq : ((b - a) / s : ℚ) = (q : ℚ) := by
          rw [hba, mul_comm, mul_div_assoc, div_self hs, mul_one]
        have hC : ⌈((b - a) / s : ℚ)⌉ = q := by
          rw [hdceq, Int.ceil_intCast]
        have hrs : rem = s := by rw [hremdef, if_pos hm]
        constructor
        · rw [hrs, hC]
          have harg : (((a - s) - (b - s)) / (-s) : ℚ) = (q : ℚ) := by
            rw [show ((a - s) - (b - s) : ℚ) = -(b - a) from by ring, hba]
            rw [show (-(s * (q : ℚ)) : ℚ) = (-s) * (q : ℚ) from by ring]
            rw [mul_comm, mul_div_assoc, div_self (neg_ne_zero.mpr hs), mul_one]
          rw [harg, Int.ceil_intCast]
        · rw [hrs, hC]
          have : b = a + s * (q : ℚ) := by linarith
          rw [this]
          ring
      · have hmq : pyMod (b - a) s = (b - a) - s * q := pyMod_eq (b - a) s
        have hC : ⌈((b - a) / s : ℚ)⌉ = q + 1 := by
          rw [Int.ceil_eq_iff]
          constructor
          · push_cast
            have hne : (b - a) / s ≠ (q : ℚ) := by
              intro hc
              apply hm
              rw [hmq]
              field_simp at hc
              linarith
            push_cast at hne
            cases lt_or_eq_of_le hfl with
            | inl hlt => linarith
            | inr heq => exact absurd heq.symm hne
          · push_cast
            linarith
        have hrs : rem = pyMod (b - a) s := by rw [hremdef, if_neg hm]
        constructor
        · rw [hrs, hC]
          have hnum : ((a - s) - (b - pyMod (b - a) s) : ℚ) = (-s) * ((q : ℚ) + 1) := by
            rw [hmq]
            ring
          have harg : (((a - s) - (b - pyMod (b - a) s)) / (-s) : ℚ) = (q : ℚ) + 1 := by
            rw [hnum, mul_comm, mul_div_assoc, div_self (neg_ne_zero.mpr hs), mul_one]
          rw [harg]
          rw [show ((q : ℚ) + 1) = (((q + 1 : ℤ)) : ℚ) from by push_cast; ring]
          rw [Int.ceil_intCast]
        · rw [hrs, hC, hmq]
          push_cast
          ring
    obtain ⟨hC', hstart⟩ := hkey
    have hns : (-s) ≠ 0 := neg_ne_zero.mpr hs
    rw [FRange.toList_eq _ hns, FRange.toList_eq _ hs, reverse_map_range]
    have hNN : FRange.iterLen ⟨b - rem, a - s, -s⟩ = FRange.iterLen ⟨a, b, s⟩ := by
      unfold FRange.iterLen
      dsimp only
      rw [hC']
    rw [hNN]
    refine List.map_congr_left (fun k hk => ?_)
    rw [List.mem_range] at hk
    have hN1 : 1 ≤ FRange.iterLen ⟨a, b, s⟩ := by omega
    have hCN : (⌈((b - a) / s : ℚ)⌉ : ℚ) = ((FRange.iterLen ⟨a, b, s⟩ : ℕ) : ℚ) := by
      have h0 : (0 : ℤ) ≤ ⌈((b - a) / s : ℚ)⌉ := by
        have : FRange.iterLen ⟨a, b, s⟩ = (⌈((b - a) / s : ℚ)⌉).toNat := rfl
        omega
      rw [show ((FRange.iterLen ⟨a, b, s⟩ : ℕ) : ℚ)
        = (((FRange.iterLen ⟨a, b, s⟩ : ℕ) : ℤ) : ℚ) from by push_cast; ring]
      congr 1
      show ⌈((b - a) / s : ℚ)⌉ = ((⌈((b - a) / s : ℚ)⌉.toNat : ℕ) : ℤ)
      omega
    show (b - rem) + (k : ℚ) * (-s)
      = a + ((FRange.iterLen ⟨a, b, s⟩ - 1 - k : ℕ) : ℚ) * s
    have hcast : ((FRange.iterLen ⟨a, b, s⟩ - 1 - k : ℕ) : ℚ)
        = ((FRange.iterLen ⟨a, b, s⟩ : ℕ) : ℚ) - 1 - (k : ℚ) := by
      have hk1 : k ≤ FRange.iterLen ⟨a, b, s⟩ - 1 := by omega
      push_cast [Nat.cast_sub hk1, Nat.cast_sub hN1]
      ring
    rw [hcast, hstart, hCN]
    ring

set_option maxRecDepth 2000 in
/-- Counterexample for C6 as frozen: `FRange(9e14, -1, -9e14)` is validly
constructed and iterates to `[9e14, 0.0]`, but its reversed range would be
`FRange(0.0, 1.8e15, 9e14)`, whose stop value trips the magnitude guard, so
`reversed` raises instead of yielding the reverse sequence. -/
theorem C6_reversed_counterexample :
    FValid 900000000000000 (-1) (-900000000000000) = true ∧
    FRange.reversedF ⟨900000000000000, -1, -900000000000000⟩ = .error errStopTooLarge ∧
    FRange.toList ⟨900000000000000, -1, -900000000000000⟩ = [900000000000000, 0] := by
  refine ⟨by with_unfolding_all decide, by with_unfolding_all decide, ?_⟩
  have hlen : FRange.iterLen ⟨900000000000000, -1, -900000000000000⟩ = 2 := by
    with_unfolding_all decide
  rw [FRange.toList_eq _ (by norm_num), hlen]
  rw [show List.range 2 = [0, 1] from rfl]
  simp only [List.map_cons, List.map_nil]
  norm_num

/-- Witness for the amended C6 at `FRange(1, 10, 3)`, whose reversal is
`FRange(7, -2, -3)`. -/
theorem C6_reversed_iterates_reverse_witness :
    FValid 1 10 3 = true ∧
    FRange.reversedF ⟨1, 10, 3⟩ = .ok ⟨7, -2, -3⟩ ∧
    FRange.toList ⟨7, -2, -3⟩ = (FRange.toList ⟨1, 10, 3⟩).reverse :=
  ⟨by with_unfolding_all decide, by with_unfolding_all decide,
    C6_reversed_iterates_reverse 1 10 3 ⟨7, -2, -3⟩ (by with_unfolding_all decide)
      (by with_unfolding_all decide)⟩

/-- C8: two `FRange` values are equal exactly when their materialised value
sequences are equal element-for-element; equal ranges have equal hashes
(the hash is a function of the materialised tuple); and an `FRange` equals a
native integer range exactly when its sequence equals the integer range's
sequence under exact numeric comparison. -/
theorem C8_eq_is_sequence_eq (r₁ r₂ : FRange) (q : IntRange) :
    (FRange.eqF r₁ r₂ = true ↔ FRange.toList r₁ = FRange.toList r₂) ∧
    (FRange.eqF r₁ r₂ = true → FRange.hashF r₁ = FRange.hashF r₂) ∧
    (FRange.eqR r₁ q = true ↔ FRange.toList r₁ = q.toList.map (fun z => (z : ℚ))) := by
  refine ⟨?_, ?_, ?_⟩
  · simp [FRange.eqF]
  · intro h
    have heq : FRange.toList r₁ = FRange.toList r₂ := by simpa [FRange.eqF] using h
    unfold FRange.hashF
    exact heq
  · simp [FRange.eqR]

/-- Witness for C8: `FRange(0, 3)` and `FRange(0, 2.5)` have different
parameters but the same sequence `[0, 1, 2]`, are equal, and hash equal. -/
theorem C8_eq_is_sequence_eq_witness :
    (FRange.eqF ⟨0, 3, 1⟩ ⟨0, 5/2, 1⟩ = true) ∧
    FRange.hashF ⟨0, 3, 1⟩ = FRange.hashF ⟨0, 5/2, 1⟩ :=
  ⟨by with_unfolding_all decide,
    (C8_eq_is_sequence_eq ⟨0, 3, 1⟩ ⟨0, 5/2, 1⟩ ⟨0, 3, 1⟩).2.1 (by with_unfolding_all decide)⟩
